import Mathlib

/-!
Verification of the academic-admin bibliography import pipeline
(`academic/cli.py`) against its specification.

The embedding models Python strings as `List Char` over the ASCII fragment
of Python's semantics: the character classification methods `str.isalnum`,
`str.lower`, `str.title`, `str.strip`, `str.split` are modelled by their
ASCII behaviour, which is the behaviour exercised by the program's data
(roster files, BibTeX keys, month names).  Fallible Python code (list and
string indexing that can raise `IndexError`, and the month-parsing branch
that raises) is modelled with `Except Unit`.

Each function is translated from the source of `academic/cli.py`:
  - `slugify`               (cli.py lines 306-321)
  - `clean_bibtex_str`      (cli.py lines 382-390)
  - `clean_bibtex_authors`  (cli.py lines 324-379)
  - `month2number`          (cli.py lines 464-473)
  - the author-annotation emission of `parse_bibtex_entry`
                            (cli.py lines 278-292)
-/

/-- A Python string, modelled as its list of characters. -/
abbrev Str := List Char

/-- Decidable equality for `Except` results, used to evaluate the model. -/
instance exceptDecEq {ε α : Type} [DecidableEq ε] [DecidableEq α] : DecidableEq (Except ε α)
  | .ok a, .ok b =>
    if h : a = b then .isTrue (by rw [h]) else .isFalse (by intro hh; cases hh; exact h rfl)
  | .ok _, .error _ => .isFalse (by intro hh; cases hh)
  | .error _, .ok _ => .isFalse (by intro hh; cases hh)
  | .error e, .error e2 =>
    if h : e = e2 then .isTrue (by rw [h]) else .isFalse (by intro hh; cases hh; exact h rfl)

/-- Python `l[i]` on a list: the value, or `IndexError`. -/
def pyGet {α : Type} (l : List α) (i : Nat) : Except Unit α :=
  match l.get? i with
  | some x => .ok x
  | none => .error ()

/-- ASCII decimal digit, modelling the regex class `\d` and `str.isdigit`. -/
def isDigitA (c : Char) : Bool := 48 ≤ c.toNat && c.toNat ≤ 57

/-- ASCII uppercase letter, modelling the regex class `[A-Z]`. -/
def isUpperA (c : Char) : Bool := 65 ≤ c.toNat && c.toNat ≤ 90

/-- ASCII lowercase letter, modelling the regex class `[a-z]`. -/
def isLowerA (c : Char) : Bool := 97 ≤ c.toNat && c.toNat ≤ 122

/-- ASCII letter. -/
def isAlphaA (c : Char) : Bool := isUpperA c || isLowerA c

/-- ASCII alphanumeric, modelling `str.isalnum`. -/
def isAlnumA (c : Char) : Bool := isAlphaA c || isDigitA c

/-- ASCII lowercasing of one character, modelling `str.lower`. -/
def toLowerA (c : Char) : Char := if isUpperA c then Char.ofNat (c.toNat + 32) else c

/-- ASCII uppercasing of one character, modelling `str.upper` (used by `str.title`). -/
def toUpperA (c : Char) : Char := if isLowerA c then Char.ofNat (c.toNat - 32) else c

/-- ASCII whitespace, the default strip/split set of Python strings. -/
def isPySpace (c : Char) : Bool :=
  c == ' ' || c == '\t' || c == '\n' || c == '\r' || c == '\x0b' || c == '\x0c'

/-- Python `s.strip()`: remove leading and trailing whitespace. -/
def pyStrip (s : Str) : Str := ((s.dropWhile isPySpace).reverse.dropWhile isPySpace).reverse

/-- Accumulator pass for `pySplitWs`; `cur` holds the current token reversed. -/
def pySplitWsAux (cur : Str) : Str → List Str
  | [] => if cur = [] then [] else [cur.reverse]
  | c :: rest =>
    if isPySpace c then
      if cur = [] then pySplitWsAux [] rest else cur.reverse :: pySplitWsAux [] rest
    else pySplitWsAux (c :: cur) rest

/-- Python `s.split()` with no argument: maximal runs of non-whitespace. -/
def pySplitWs (s : Str) : List Str := pySplitWsAux [] s

/-- Fuel-driven scan for `pySplitOn`; the scan pointer advances at least one
character per step, so `s.length` fuel always suffices and the zero-fuel
branch is unreachable. -/
def pySplitOnAux (sep : Str) : Nat → Str → List Str
  | _, [] => [[]]
  | 0, s => [s]
  | fuel+1, c :: rest =>
    if sep ≠ [] ∧ sep.isPrefixOf (c :: rest) then
      [] :: pySplitOnAux sep fuel ((c :: rest).drop sep.length)
    else
      match pySplitOnAux sep fuel rest with
      | p :: ps => (c :: p) :: ps
      | [] => [[c]]

/-- Python `s.split(sep)` for a non-empty literal separator: non-overlapping
left-to-right occurrences, empty parts kept. -/
def pySplitOn (sep s : Str) : List Str := pySplitOnAux sep s.length s

/-- Fuel-driven scan for `replaceAll`; the scan pointer advances at least one
character per step, so `s.length` fuel always suffices and the zero-fuel
branch is unreachable. -/
def replaceAllAux (pat rep : Str) : Nat → Str → Str
  | _, [] => []
  | 0, s => s
  | fuel+1, c :: rest =>
    if pat ≠ [] ∧ pat.isPrefixOf (c :: rest) then
      rep ++ replaceAllAux pat rep fuel ((c :: rest).drop pat.length)
    else c :: replaceAllAux pat rep fuel rest

/-- Python `s.replace(pat, rep)` for a non-empty literal pattern:
non-overlapping left-to-right replacement. -/
def replaceAll (pat rep s : Str) : Str := replaceAllAux pat rep s.length s

/-- Python `s.replace(old, new)` for single characters, as a character map. -/
def replCh (old new c : Char) : Char := if c == old then new else c

/-- Python `s.zfill(w)`: left-pad with zeros to width `w`, keeping a leading
sign in front of the padding. -/
def zfill (w : Nat) (s : Str) : Str :=
  if w ≤ s.length then s
  else
    match s with
    | [] => List.replicate w '0'
    | c :: rest =>
      if c == '+' || c == '-' then c :: (List.replicate (w - s.length) '0' ++ rest)
      else List.replicate (w - s.length) '0' ++ s

/-- Pass for `pyTitle`: `prevCased` records whether the previous character
was a (ASCII) cased letter. -/
def pyTitleAux (prevCased : Bool) : Str → Str
  | [] => []
  | c :: rest =>
    if isAlphaA c then
      (if prevCased then toLowerA c else toUpperA c) :: pyTitleAux true rest
    else c :: pyTitleAux false rest

/-- Python `s.title()` (ASCII): uppercase each letter that starts a run of
letters, lowercase the other letters. -/
def pyTitle (s : Str) : Str := pyTitleAux false s

/-- The ASCII character of a decimal digit value. -/
def digitChar (d : Nat) : Char := Char.ofNat (48 + d)

/-- Python `str(n)` for `n < 100` (month indexes are at most 12). -/
def natToDec (n : Nat) : Str :=
  if n < 10 then [digitChar n] else [digitChar (n / 10), digitChar (n % 10)]

/-- Python `list.index` returning an `Option` position of the first match. -/
def indexOfL (x : Str) : List Str → Option Nat
  | [] => none
  | y :: rest => if y = x then some 0 else (indexOfL x rest).map (· + 1)

/-- The hyphen-run collapse of `slugify` (cli.py line 317): the regex
substitution of `-{2,}` by `-` rewrites every maximal run of two or more
hyphens to a single hyphen, i.e. drops a hyphen whenever the next character
is also a hyphen. -/
def collapseDashes : Str → Str
  | [] => []
  | [c] => [c]
  | c1 :: c2 :: rest =>
    if c1 = '-' ∧ c2 = '-' then collapseDashes (c2 :: rest)
    else c1 :: collapseDashes (c2 :: rest)

/-- The substitution `re.sub(r"(\D+)(\d+)", r"\1\-\2", s)` of `slugify`
(cli.py line 313).  The pattern matches each maximal non-digit run followed
by a digit run, so the substitution inserts the replacement-template text
between every non-digit character and an immediately following digit.  In
the template, `\-` is an unknown non-letter escape which Python's `re.sub`
leaves alone, so a literal backslash and hyphen are inserted (the backslash
is stripped later, at line 316). -/
def dashND : Str → Str
  | [] => []
  | [c] => [c]
  | c1 :: c2 :: rest =>
    if ¬ isDigitA c1 ∧ isDigitA c2 then c1 :: '\\' :: '-' :: dashND (c2 :: rest)
    else c1 :: dashND (c2 :: rest)

/-- The substitution `re.sub(r"(\d+)(\D+)", r"\1\-\2", s)` of `slugify`
(cli.py line 314): inserts a literal `\-` between every digit and an
immediately following non-digit (see `dashND` for the template reading). -/
def dashDN : Str → Str
  | [] => []
  | [c] => [c]
  | c1 :: c2 :: rest =>
    if isDigitA c1 ∧ ¬ isDigitA c2 then c1 :: '\\' :: '-' :: dashDN (c2 :: rest)
    else c1 :: dashDN (c2 :: rest)

/-- Whether the head of the remaining input is an ASCII lowercase letter
(the lookahead `(?=[a-z])` of the camel-case regex). -/
def nextLower : Str → Bool
  | [] => false
  | c :: _ => isLowerA c

/-- Scan for `dashCamel`; `prev` is the previous character of the original
string (the lookbehind context). -/
def dashCamelAux (prev : Char) : Str → Str
  | [] => []
  | c :: rest =>
    if isUpperA c ∧ (isLowerA prev ∨ nextLower rest = true) then
      '\\' :: '-' :: c :: dashCamelAux c rest
    else c :: dashCamelAux c rest

/-- The substitution
`re.sub(r"((?<=[a-z])[A-Z]|(?<!\A)[A-Z](?=[a-z]))", r"\-\1", s)` of
`slugify` (cli.py line 315): inserts a literal `\-` before every uppercase
letter that follows a lowercase letter, or that is not at the start of the
string and is followed by a lowercase letter.  Both alternatives require a
preceding character, so the first character never matches. -/
def dashCamel : Str → Str
  | [] => []
  | c :: rest => c :: dashCamelAux c rest

/-- The character filter of `slugify` (cli.py line 316): keep alphanumeric
characters and the hyphen delimiter. -/
def goodS (c : Char) : Bool := isAlnumA c || c == '-'

/-- `slugify` (cli.py lines 306-321).  In order: replace `.`, `_`, `:` by
`-`; delimit non-digit/digit and digit/non-digit boundaries; delimit
camel-case; strip characters that are neither alphanumeric nor `-` (the
trailing `.strip()` of line 316 is `pyStrip`); collapse hyphen runs;
lowercase unless `lower` is false. -/
def slugify (s : Str) (lower : Bool := true) : Str :=
  let s1 := ((s.map (replCh '.' '-')).map (replCh '_' '-')).map (replCh ':' '-')
  let s2 := dashND s1
  let s3 := dashDN s2
  let s4 := dashCamel s3
  let s5 := pyStrip (s4.filter goodS)
  let s6 := collapseDashes s5
  if lower then s6.map toLowerA else s6

/-- The tab/newline/carriage-return pass shared by `clean_bibtex_str` and
`clean_abstract_str` (cli.py lines 387 and 424):
`s.replace("\t", " ").replace("\n", " ").replace("\r", "")` — tab and
newline become a space, carriage return is removed. -/
def ws_pass (s : Str) : Str :=
  ((s.map (replCh '\t' ' ')).map (replCh '\n' ' ')).filter (fun c => c != '\r')

/-- `clean_bibtex_str` (cli.py lines 382-390): remove backslashes, escape
double quotes, strip braces, apply the whitespace pass, then re-brace the
literal `1-x`. -/
def clean_bibtex_str (s : Str) : Str :=
  let s1 := s.filter (fun c => c != '\\')
  let s2 := s1.flatMap (fun c => if c == '\"' then ['\\', '\"'] else [c])
  let s3 := (s2.filter (fun c => c != '\x7b')).filter (fun c => c != '\x7d')
  let s4 := ws_pass s3
  replaceAll "1-x".data "\x7b1-x\x7d".data s4

/-- The suffix words of `clean_bibtex_authors` (cli.py line 341).  Note the
comparison in the source is plain `in` on these exact lowercase strings:
it is case-sensitive. -/
def suffixes : List Str := ["jnr".data, "jr".data, "junior".data]

/-- The particle words of `clean_bibtex_authors` (cli.py line 344). -/
def particles : List Str := ["ben".data, "van".data, "der".data, "de".data, "la".data, "le".data]

/-- `i.replace(".", ". ")` (cli.py line 340): a space after every period. -/
def dotExpand (s : Str) : Str := s.flatMap (fun c => if c == '.' then ['.', ' '] else [c])

/-- The name-splitting step of `clean_bibtex_authors` (cli.py lines
333-340): with a comma, split once at the first comma into
`(lastName, remainder)` and whitespace-split the remainder; without a
comma, whitespace-split, pop the last token as the last name and
period-expand the remaining tokens.  The token is non-empty and stripped at
the call site, so the whitespace split is never empty; the `none` branch is
unreachable. -/
def splitNameRaw (s : Str) : Str × List Str :=
  if ',' ∈ s then
    (pyStrip (s.takeWhile (fun c => c != ',')),
     (pySplitWs ((s.dropWhile (fun c => c != ',')).drop 1)).map pyStrip)
  else
    let parts := pySplitWs s
    match parts.getLast? with
    | some ln => (ln, parts.dropLast.map (fun t => pyStrip (dotExpand t)))
    | none => ([], [])

/-- The suffix step of `clean_bibtex_authors` (cli.py lines 341-342): when
the last name is one of the `suffixes`, `first_names.pop()` becomes the
last name — an `IndexError` when there are no first names. -/
def applySuffix (ln : Str) (fns : List Str) : Except Unit (Str × List Str) :=
  if ln ∈ suffixes then
    match fns.getLast? with
    | some popped => .ok (popped, fns.dropLast)
    | none => .error ()
  else .ok (ln, fns)

/-- The particle loop of `clean_bibtex_authors` (cli.py lines 343-345),
`for item in first_names: if item in particles: last_name =
first_names.pop() + " " + last_name`.  Python iterates by index over the
list while it is mutated, so the model carries the index `idx`; `pop`
removes the last element.  The index grows each step and the list never
grows, so `fns.length` fuel always suffices; the zero-fuel branch and the
`getLast? = none` branch (the index is in bounds, so the list is nonempty)
are unreachable. -/
def particleLoopB : Nat → List Str → Str → Nat → (List Str × Str)
  | 0, fns, ln, _ => (fns, ln)
  | fuel+1, fns, ln, idx =>
    match fns.get? idx with
    | none => (fns, ln)
    | some item =>
      if item ∈ particles then
        match fns.getLast? with
        | some popped => particleLoopB fuel fns.dropLast (popped ++ ' ' :: ln) (idx + 1)
        | none => (fns, ln)
      else particleLoopB fuel fns ln (idx + 1)

/-- The particle loop started at index 0 with exactly enough fuel. -/
def particleLoop (fns : List Str) (ln : Str) : List Str × Str :=
  particleLoopB fns.length fns ln 0

/-- The display name `f'"{" ".join(first_names)} {last_name}"'` appended by
`clean_bibtex_authors` (cli.py line 346). -/
def displayOf (fns : List Str) (ln : Str) : Str :=
  '\"' :: (List.intercalate [' '] fns ++ ' ' :: ln) ++ ['\"']

/-- `[i for i, j in enumerate(roster_last) if j == last_name]` (cli.py
lines 350 and 366): the positions, in roster order, whose last name equals
the query last name.  Every listed index is below `roster_last.length`. -/
def candIdxs (ros_last : List Str) (ln : Str) : List Nat :=
  (List.range ros_last.length).filter (fun i => ros_last.getD i [] = ln)

/-- The candidate loop of `clean_bibtex_authors` (cli.py lines 351-357 and
367-373): for each candidate index in order, match if the first given name
equals the roster first name, else if their leading characters are equal;
stop at the first match.  `first_names[0]` raises when there are no first
names, and the leading-character accesses raise on empty strings. -/
def matchLoop (ros_first : List Str) (fns : List Str) : List Nat → Except Unit (Option Nat)
  | [] => .ok none
  | i :: rest => do
    let f0 ← pyGet fns 0
    let rf ← pyGet ros_first i
    if f0 = rf then .ok (some i)
    else do
      let c1 ← pyGet f0 0
      let c2 ← pyGet rf 0
      if c1 = c2 then .ok (some i) else matchLoop ros_first fns rest

/-- One roster query of `clean_bibtex_authors` (cli.py lines 349-362 and
364-377): run the candidate loop and return the matched link, or the empty
string when no candidate matched. -/
def rosterMatch (ros_last ros_first ros_link : List Str) (ln : Str) (fns : List Str) :
    Except Unit Str := do
  let r ← matchLoop ros_first fns (candIdxs ros_last ln)
  match r with
  | some i => pyGet ros_link i
  | none => .ok []

/-- The per-token body of `clean_bibtex_authors` (cli.py lines 333-377) on
an already-stripped non-empty token: parse the name, apply the suffix step
and the particle loop, then produce the display name and the two roster
links. -/
def processToken (s : Str) (mf ml mlink af al alink : List Str) :
    Except Unit (Str × Str × Str) := do
  let (ln0, fns0) := splitNameRaw s
  let (ln1, fns1) ← applySuffix ln0 fns0
  let (fns2, ln2) := particleLoop fns1 ln1
  let m ← rosterMatch ml mf mlink ln2 fns2
  let a ← rosterMatch al af alink ln2 fns2
  .ok (displayOf fns2 ln2, m, a)

/-- `clean_bibtex_authors` (cli.py lines 324-379): per token, strip it,
skip it when empty, otherwise process it; the three result lists receive
one element per processed token, in input order.  A raised `IndexError`
aborts the whole call. -/
def clean_bibtex_authors (author_str : List Str) (mf ml mlink af al alink : List Str) :
    Except Unit (List Str × List Str × List Str) :=
  match author_str with
  | [] => .ok ([], [], [])
  | t :: rest =>
    let s := pyStrip t
    if s.length < 1 then clean_bibtex_authors rest mf ml mlink af al alink
    else do
      let (a, m, al2) ← processToken s mf ml mlink af al alink
      let (as, ms, als) ← clean_bibtex_authors rest mf ml mlink af al alink
      .ok (a :: as, m :: ms, al2 :: als)

/-- The author annotation emitted in the front matter, abstracting the
three text blocks of `parse_bibtex_entry` (cli.py lines 284-292). -/
inductive AuthorMatch : Type where
  | unmatched : AuthorMatch
  | memberMatch : Str → AuthorMatch
  | alumniMatch : Str → AuthorMatch
deriving DecidableEq

/-- The per-author branch of `parse_bibtex_entry` (cli.py lines 284-292):
empty member and alumni links give `is_member = false`; an empty alumni
link (member link non-empty) gives `is_member = true` with link
`/<member>`; otherwise `is_former_member = true` with link
`/alumni/<alumni>`. -/
def emitMatch (m a : Str) : AuthorMatch :=
  if m = [] ∧ a = [] then .unmatched
  else if a = [] then .memberMatch ('/' :: m)
  else .alumniMatch ("/alumni/".data ++ a)

/-- `for i, a in enumerate(authors)` of `parse_bibtex_entry` (cli.py lines
281-292): pair each display name with the annotation built from
`member[i]` and `alumni[i]` (indexing that can raise). -/
def emitLoop (ms als : List Str) : Nat → List Str → Except Unit (List (Str × AuthorMatch))
  | _, [] => .ok []
  | i, a :: rest => do
    let m ← pyGet ms i
    let al ← pyGet als i
    let restOut ← emitLoop ms als (i + 1) rest
    .ok ((a, emitMatch m al) :: restOut)

/-- The author block of `parse_bibtex_entry` (cli.py lines 278-292): split
the raw author field on `" and "` after replacing newlines by spaces, strip
each token, run `clean_bibtex_authors`, and emit one annotated author per
result position. -/
def parseEntryAuthors (raw : Str) (mf ml mlink af al alink : List Str) :
    Except Unit (List (Str × AuthorMatch)) := do
  let (as, ms, als) ← clean_bibtex_authors
    ((pySplitOn " and ".data (raw.map (replCh '\n' ' '))).map pyStrip) mf ml mlink af al alink
  emitLoop ms als 0 as

/-- Per-token success condition for `clean_bibtex_authors`: the token is
empty (skipped), or the suffix step finds a first name to pop, and after
the particle loop either some first name remains or the last name occurs in
neither roster (so the candidate loops never index `first_names[0]`). -/
def tokOK (s : Str) (ml al : List Str) : Bool :=
  if s = [] then true
  else
    let p0 := splitNameRaw s
    if p0.1 ∈ suffixes ∧ p0.2 = [] then false
    else
      match applySuffix p0.1 p0.2 with
      | .error _ => false
      | .ok (ln1, fns1) =>
        let p2 := particleLoop fns1 ln1
        !p2.1.isEmpty || (!(decide (p2.2 ∈ ml)) && !(decide (p2.2 ∈ al)))

/-- The English month-abbreviation table `calendar.month_abbr` (C locale):
a leading empty entry then the twelve abbreviations. -/
def monthAbbrs : List Str :=
  ["".data, "Jan".data, "Feb".data, "Mar".data, "Apr".data, "May".data, "Jun".data,
   "Jul".data, "Aug".data, "Sep".data, "Oct".data, "Nov".data, "Dec".data]

/-- `month2number` (cli.py lines 464-473): a string of length at most 2 is
zero-filled and returned; otherwise the first three characters of the
stripped string are title-cased and looked up in `monthAbbrs`.  On a failed
lookup the source executes `raise log.error(...)`: `log.error` returns
`None`, and raising `None` raises a `TypeError` — modelled as `error`. -/
def month2number (month : Str) : Except Unit Str :=
  if month.length ≤ 2 then .ok (zfill 2 month)
  else
    match indexOfL (pyTitle ((pyStrip month).take 3)) monthAbbrs with
    | some i => .ok (zfill 2 (natToDec i))
    | none => .error ()

/-- `indexOfL` finds nothing exactly when the element is absent. -/
theorem indexOfL_eq_none_iff (x : Str) (l : List Str) : indexOfL x l = none ↔ x ∉ l := by
  induction l with
  | nil => simp [indexOfL]
  | cons y rest ih =>
    rw [indexOfL]
    by_cases h : y = x
    · subst h
      simp
    · rw [if_neg h, Option.map_eq_none', ih]
      constructor
      · intro hn hmem
        rcases List.mem_cons.mp hmem with rfl | hmem2
        · exact h rfl
        · exact hn hmem2
      · intro hn hm
        exact hn (List.mem_cons_of_mem _ hm)

/-- Characters of a `replaceAllAux` result come from the input or the
replacement. -/
theorem mem_replaceAllAux (pat rep : Str) (fuel : Nat) (s : Str) (c : Char)
    (h : c ∈ replaceAllAux pat rep fuel s) : c ∈ s ∨ c ∈ rep := by
  induction fuel generalizing s with
  | zero =>
    cases s with
    | nil => simp [replaceAllAux] at h
    | cons a rest => exact Or.inl h
  | succ fuel ih =>
    cases s with
    | nil => simp [replaceAllAux] at h
    | cons a rest =>
      rw [replaceAllAux] at h
      split at h
      · rcases List.mem_append.mp h with h1 | h1
        · exact Or.inr h1
        · rcases ih _ h1 with h2 | h2
          · exact Or.inl (List.mem_of_mem_drop h2)
          · exact Or.inr h2
      · rcases List.mem_cons.mp h with h1 | h1
        · exact Or.inl (h1 ▸ List.mem_cons_self a rest)
        · rcases ih _ h1 with h2 | h2
          · exact Or.inl (List.mem_cons_of_mem a h2)
          · exact Or.inr h2

/-- Characters of a `ws_pass` result are never tab, newline or carriage
return. -/
theorem ws_pass_no_ws (s : Str) (c : Char) (h : c ∈ ws_pass s) :
    (c == '\t' || c == '\n' || c == '\r') = false := by
  simp only [ws_pass, List.mem_filter, List.mem_map] at h
  obtain ⟨⟨b, ⟨a, _, rfl⟩, rfl⟩, hr⟩ := h
  simp only [replCh]
  split_ifs with h1 h2 <;> simp_all [replCh]

/-- Claim C8 (counterexample): the base sanitization pass deletes a
carriage return instead of replacing it with a space: on the input
`"a\rb"` the output is `"ab"`, which differs from `"a b"`. -/
theorem C8_counterexample :
    clean_bibtex_str "a\rb".data = "ab".data ∧ "ab".data ≠ "a b".data := by
  constructor
  · decide
  · decide

/-- Claim C8 (amended): the base sanitization pass replaces every tab and
newline character with a single space, while every carriage return is
removed (not replaced); consequently the output of `clean_bibtex_str`
never contains a tab, newline or carriage return. -/
theorem C8_amended :
    (∀ u v : Str, ws_pass (u ++ '\t' :: v) = ws_pass u ++ ' ' :: ws_pass v) ∧
    (∀ u v : Str, ws_pass (u ++ '\n' :: v) = ws_pass u ++ ' ' :: ws_pass v) ∧
    (∀ u v : Str, ws_pass (u ++ '\r' :: v) = ws_pass u ++ ws_pass v) ∧
    (∀ s : Str, (clean_bibtex_str s).all
      (fun c => !(c == '\t' || c == '\n' || c == '\r')) = true) := by
  refine ⟨?_, ?_, ?_, ?_⟩
  · intro u v
    simp [ws_pass, replCh]
  · intro u v
    simp [ws_pass, replCh]
  · intro u v
    simp [ws_pass, replCh]
  · intro s
    rw [List.all_eq_true]
    intro c hc
    simp only [clean_bibtex_str, replaceAll] at hc
    rcases mem_replaceAllAux _ _ _ _ _ hc with h | h
    · simp [ws_pass_no_ws _ _ h]
    · simp only [List.mem_cons, List.not_mem_nil, or_false] at h
      rcases h with rfl | rfl | rfl | rfl | rfl <;> decide

/-- Claim C7 (counterexample): `slugify("Smith_2020.ABCtest")` is not
`"smith-2020-abctest"`: the camel-case rule inserts a delimiter before the
`C` of `ABCtest` (an internal uppercase letter followed by a lowercase
letter). -/
theorem C7_counterexample :
    slugify "Smith_2020.ABCtest".data ≠ "smith-2020-abctest".data := by
  decide

/-- Claim C7 (amended): `slugify("Smith_2020.ABCtest")` with default
lowercasing returns exactly `"smith-2020-ab-ctest"`. -/
theorem C7_amended :
    slugify "Smith_2020.ABCtest".data = "smith-2020-ab-ctest".data := by
  decide

/-- Claim C5 (corrected): on a month field longer than two characters whose
first three letters, title-cased, are not in the abbreviation table,
`month2number` does not fall back to `"01"`: the source executes
`raise log.error(...)`, raising a `TypeError` (modelled `error`), so the
entry is aborted, not emitted. -/
theorem C5_amended (m : Str) (hlen : 2 < m.length)
    (habs : pyTitle ((pyStrip m).take 3) ∉ monthAbbrs) :
    month2number m = .error () := by
  have hh : ¬ m.length ≤ 2 := by omega
  simp only [month2number, if_neg hh]
  rw [(indexOfL_eq_none_iff _ _).mpr habs]

/-- Witness for `C5_amended` at the concrete month text `"Foobar"`. -/
theorem C5_amended_witness :
    2 < ("Foobar".data : Str).length ∧
    pyTitle ((pyStrip "Foobar".data).take 3) ∉ monthAbbrs ∧
    month2number "Foobar".data = .error () :=
  ⟨by decide, by decide, C5_amended "Foobar".data (by decide) (by decide)⟩

/-- Claim C5 (counterexample): `month2number "Foobar"` raises instead of
falling back to the default month `"01"`. -/
theorem C5_counterexample :
    month2number "Foobar".data = .error () ∧
    month2number "Foobar".data ≠ .ok "01".data := by
  constructor
  · decide
  · decide

/-- Claim C4 (counterexample): the suffix comparison is case-sensitive, so
the token `"John Smith Jr"` parses to last name `"Jr"` with first names
`["John", "Smith"]` — the suffix is not dropped and `"Smith"` does not
become the last name. -/
theorem C4_counterexample :
    applySuffix (splitNameRaw "John Smith Jr".data).1 (splitNameRaw "John Smith Jr".data).2
      = Except.ok ("Jr".data, ["John".data, "Smith".data]) ∧
    ("Jr".data : Str) ≠ "Smith".data :=
  ⟨by decide, by decide⟩

/-- Claim C4 (amended): for every author token whose parsed last name is
exactly (case-sensitively) one of `jnr`, `jr`, `junior`, the suffix is
dropped and the last remaining first-name token becomes the last name; in
particular `"John Smith jr"` parses to last name `"Smith"` and first names
`["John"]`, while the capitalised `"Jr"` is not treated as a suffix. -/
theorem C4_amended :
    (∀ (ln : Str) (fns : List Str), ln ∈ suffixes → fns ≠ [] →
      ∃ popped, fns.getLast? = some popped ∧
        applySuffix ln fns = Except.ok (popped, fns.dropLast)) ∧
    applySuffix (splitNameRaw "John Smith jr".data).1 (splitNameRaw "John Smith jr".data).2
      = Except.ok ("Smith".data, ["John".data]) := by
  constructor
  · intro ln fns hmem hne
    refine ⟨fns.getLast hne, List.getLast?_eq_getLast fns hne, ?_⟩
    rw [applySuffix, if_pos hmem, List.getLast?_eq_getLast fns hne]
  · decide

/-- Witness for the hypotheses of `C4_amended` at the suffix `"jr"`. -/
theorem C4_amended_witness :
    ("jr".data ∈ suffixes) ∧ ((["John".data, "Smith".data] : List Str) ≠ []) ∧
    ∃ popped, (["John".data, "Smith".data] : List Str).getLast? = some popped ∧
      applySuffix "jr".data ["John".data, "Smith".data]
        = Except.ok (popped, (["John".data, "Smith".data] : List Str).dropLast) :=
  ⟨by decide, by decide,
    C4_amended.1 "jr".data ["John".data, "Smith".data] (by decide) (by decide)⟩

/-- Claim C1 (counterexample): a person listed in both rosters under the
same name — roster entries `("jsmith", "Smith", "Jane")` (member) and
`("jsmith-alum", "Smith", "Jane")` (alumni) — is emitted by the author
block as a former member with the alumni link, not as a member. -/
theorem C1_counterexample :
    parseEntryAuthors "Jane Smith".data ["Jane".data] ["Smith".data] ["jsmith".data]
      ["Jane".data] ["Smith".data] ["jsmith-alum".data]
    = Except.ok [("\"Jane Smith\"".data, AuthorMatch.alumniMatch "/alumni/jsmith-alum".data)] ∧
    AuthorMatch.alumniMatch "/alumni/jsmith-alum".data
      ≠ AuthorMatch.memberMatch ('/' :: "jsmith".data) :=
  ⟨by decide, by decide⟩

/-- Claim C1 (amended): the alumni link takes priority.  Whenever the
alumni link of an author is non-empty the emitted annotation is the alumni
one (`is_former_member = true` with link `/alumni/<link>`), regardless of
the member link; a member annotation (`is_member = true` with link
`/<link>`) is emitted only when the alumni link is empty. -/
theorem C1_amended :
    (∀ m a : Str, a ≠ [] → emitMatch m a = AuthorMatch.alumniMatch ("/alumni/".data ++ a)) ∧
    (∀ m : Str, m ≠ [] → emitMatch m [] = AuthorMatch.memberMatch ('/' :: m)) := by
  constructor
  · intro m a ha
    rw [emitMatch, if_neg (fun hc => ha hc.2), if_neg ha]
  · intro m hm
    rw [emitMatch, if_neg (fun hc => hm hc.1), if_pos rfl]

/-- Witness for the hypotheses of `C1_amended` on concrete links. -/
theorem C1_amended_witness :
    (("jsmith-alum".data : Str) ≠ []) ∧
    emitMatch "jsmith".data "jsmith-alum".data
      = AuthorMatch.alumniMatch ("/alumni/".data ++ "jsmith-alum".data) :=
  ⟨by decide, C1_amended.1 "jsmith".data "jsmith-alum".data (by decide)⟩

/-- Claim C2 (counterexample): with member roster
`[("r1", "Smith", "Robert"), ("r2", "Smith", "Rachel")]` and the author
token `"Rachel Smith"`, the emitted member link is `"r1"`: the earlier
initial-only candidate `Robert` wins over the later exact candidate
`Rachel`, so an exact first-name match is not preferred across
candidates. -/
theorem C2_counterexample :
    clean_bibtex_authors ["Rachel Smith".data]
      ["Robert".data, "Rachel".data] ["Smith".data, "Smith".data] ["r1".data, "r2".data]
      [] [] []
    = Except.ok (["\"Rachel Smith\"".data], ["r1".data], ["".data]) ∧
    ("r1".data : Str) ≠ "r2".data :=
  ⟨by decide, by decide⟩

/-- Claim C3 (counterexample): the author token `"jr"` (a bare suffix word)
parses to an empty first-name list, and the suffix step's
`first_names.pop()` raises `IndexError`: `clean_bibtex_authors` does not
terminate normally on every input. -/
theorem C3_counterexample :
    clean_bibtex_authors ["jr".data] [] [] [] [] [] [] = Except.error () := by
  decide

/-- Membership in the candidate list: exactly the in-range positions whose
roster last name equals the query. -/
theorem mem_candIdxs (ros_last : List Str) (ln : Str) (i : Nat) :
    i ∈ candIdxs ros_last ln ↔ i < ros_last.length ∧ ros_last.getD i [] = ln := by
  simp [candIdxs, List.mem_filter, List.mem_range]

/-- In-range Python indexing returns the element. -/
theorem pyGet_lt {α : Type} (l : List α) (i : Nat) (d : α) (h : i < l.length) :
    pyGet l i = .ok (l.getD i d) := by
  have h1 : l.get? i = some l[i] := by
    rw [List.get?_eq_getElem?]
    exact List.getElem?_eq_getElem h
  simp [pyGet, h1, List.getD_eq_getElem?_getD, List.getElem?_eq_getElem h]

/-- The single-candidate test of the match loop (cli.py lines 352-357):
the candidate's first name equals the query's first given name, or their
leading characters are equal. -/
def candHit (ros_first : List Str) (f0 : Str) (i : Nat) : Bool :=
  decide (f0 = ros_first.getD i []) ||
  decide (f0.headD ' ' = (ros_first.getD i []).headD ' ')

/-- Bind of a successful `Except` computation. -/
theorem exceptBind_ok {ε α β : Type} (a : α) (f : α → Except ε β) :
    (Except.ok a >>= f : Except ε β) = f a := rfl

/-- One step of the candidate loop when the roster entry at `i` is known. -/
theorem matchLoop_cons (ros_first : List Str) (f0 : Str) (fns : List Str) (i : Nat)
    (rest : List Nat) (rf : Str) (hrf : ros_first.get? i = some rf) :
    matchLoop ros_first (f0 :: fns) (i :: rest) =
      (if f0 = rf then .ok (some i)
       else do
         let c1 ← pyGet f0 0
         let c2 ← pyGet rf 0
         if c1 = c2 then .ok (some i) else matchLoop ros_first (f0 :: fns) rest) := by
  rw [matchLoop]
  have h0 : pyGet (f0 :: fns) 0 = Except.ok f0 := rfl
  have h1 : pyGet ros_first i = Except.ok rf := by
    simp only [pyGet]
    rw [hrf]
  rw [h0, exceptBind_ok, h1, exceptBind_ok]

/-- The candidate loop returns the first candidate, in roster order,
satisfying `candHit` — one pass, with no preference of exact matches over
initial-only matches across candidates. -/
theorem matchLoop_eq_find (ros_first : List Str) (f0 : Str) (fns : List Str) (idxs : List Nat)
    (hf0 : f0 ≠ [])
    (hlt : ∀ i ∈ idxs, i < ros_first.length)
    (hne : ∀ f ∈ ros_first, f ≠ []) :
    matchLoop ros_first (f0 :: fns) idxs = .ok (idxs.find? (candHit ros_first f0)) := by
  induction idxs with
  | nil => simp [matchLoop]
  | cons i rest ih =>
    have hi : i < ros_first.length := hlt i (List.mem_cons_self _ _)
    have hgd : ros_first.getD i [] = ros_first[i] := by
      rw [List.getD_eq_getElem?_getD, List.getElem?_eq_getElem hi]
      rfl
    have hmemrf : ros_first.getD i [] ∈ ros_first := by
      rw [hgd]
      exact List.getElem_mem hi
    obtain ⟨d, rf', hrf2⟩ : ∃ d rf', ros_first.getD i [] = d :: rf' := by
      cases hh : ros_first.getD i [] with
      | nil => exact absurd hh (hne _ hmemrf)
      | cons d t => exact ⟨d, t, rfl⟩
    have hget : ros_first.get? i = some (d :: rf') := by
      rw [List.get?_eq_getElem?, List.getElem?_eq_getElem hi, ← hgd, hrf2]
    obtain ⟨c, f0', rfl⟩ : ∃ c f0', f0 = c :: f0' := by
      cases f0 with
      | nil => exact absurd rfl hf0
      | cons c t => exact ⟨c, t, rfl⟩
    rw [matchLoop_cons _ _ _ _ _ _ hget]
    by_cases hex : (c :: f0' : Str) = d :: rf'
    · rw [if_pos hex, List.find?_cons_of_pos _ ?hpos]
      case hpos =>
        simp only [candHit]
        rw [hrf2]
        simp [hex]
    · rw [if_neg hex]
      have hc1 : pyGet (c :: f0' : Str) 0 = Except.ok c := rfl
      have hc2 : pyGet (d :: rf' : Str) 0 = Except.ok d := rfl
      rw [hc1, exceptBind_ok, hc2, exceptBind_ok]
      by_cases hhd : c = d
      · rw [if_pos hhd, List.find?_cons_of_pos _ ?hpos2]
        case hpos2 =>
          simp only [candHit]
          rw [hrf2]
          simp [hhd]
      · rw [if_neg hhd, List.find?_cons_of_neg _ ?hneg]
        · exact ih (fun j hj => hlt j (List.mem_cons_of_mem _ hj))
        case hneg =>
          simp only [candHit]
          rw [hrf2]
          simp only [List.headD_cons, Bool.or_eq_true, decide_eq_true_eq]
          push_neg
          exact ⟨hex, hhd⟩

/-- Claim C2 (amended): among roster entries whose last name equals the
query last name, the chosen match is the first, in roster order, whose
first name equals the query's first given name exactly OR whose first
name's leading character equals the query's leading character — a single
pass in which the two tests are tried per candidate, so an earlier
initial-only candidate is chosen over a later exact match; when no
candidate passes, the empty link is returned. -/
theorem C2_amended (ros_last ros_first ros_link : List Str) (ln f0 : Str) (fns : List Str)
    (hf0 : f0 ≠ [])
    (hflen : ros_last.length ≤ ros_first.length)
    (hllen : ros_last.length ≤ ros_link.length)
    (hne : ∀ f ∈ ros_first, f ≠ []) :
    rosterMatch ros_last ros_first ros_link ln (f0 :: fns) =
      Except.ok (match (candIdxs ros_last ln).find? (candHit ros_first f0) with
        | some i => ros_link.getD i []
        | none => []) := by
  have hlt : ∀ i ∈ candIdxs ros_last ln, i < ros_first.length := fun i hi =>
    Nat.lt_of_lt_of_le ((mem_candIdxs _ _ _).mp hi).1 hflen
  rw [rosterMatch]
  rw [matchLoop_eq_find _ _ _ _ hf0 hlt hne, exceptBind_ok]
  cases hfind : (candIdxs ros_last ln).find? (candHit ros_first f0) with
  | none => rfl
  | some i =>
    have hmem : i ∈ candIdxs ros_last ln := List.mem_of_find?_eq_some hfind
    have hi : i < ros_link.length :=
      Nat.lt_of_lt_of_le ((mem_candIdxs _ _ _).mp hmem).1 hllen
    exact pyGet_lt _ _ _ hi

/-- Witness for `C2_amended` on the two-candidate roster of the
counterexample: the first (initial-only) candidate is returned. -/
theorem C2_amended_witness :
    (("Rachel".data : Str) ≠ []) ∧
    ((["Smith".data, "Smith".data] : List Str).length ≤ 2) ∧
    (∀ f ∈ (["Robert".data, "Rachel".data] : List Str), f ≠ []) ∧
    rosterMatch ["Smith".data, "Smith".data] ["Robert".data, "Rachel".data]
        ["r1".data, "r2".data] "Smith".data ["Rachel".data] =
      Except.ok (match (candIdxs ["Smith".data, "Smith".data] "Smith".data).find?
          (candHit ["Robert".data, "Rachel".data] "Rachel".data) with
        | some i => (["r1".data, "r2".data] : List Str).getD i []
        | none => []) :=
  ⟨by decide, by decide, by decide,
    C2_amended ["Smith".data, "Smith".data] ["Robert".data, "Rachel".data]
      ["r1".data, "r2".data] "Smith".data "Rachel".data []
      (by decide) (by decide) (by decide) (by decide)⟩

/-- Bind of a failed `Except` computation. -/
theorem exceptBind_err {ε α β : Type} (e : ε) (f : α → Except ε β) :
    (Except.error e >>= f : Except ε β) = .error e := rfl

/-- Claim C9 (confirmed): on success, `clean_bibtex_authors` returns three
lists of equal length, one position per token that is non-empty after
trimming, in input order: the results are exactly the unzipped
`processToken` outputs of the trimmed non-empty tokens. -/
theorem C9_author_order_lengths (tokens mf ml mlink af al alink : List Str)
    (as ms als : List Str)
    (h : clean_bibtex_authors tokens mf ml mlink af al alink = .ok (as, ms, als)) :
    as.length = ms.length ∧ as.length = als.length ∧
    as.length = tokens.countP (fun t => !(pyStrip t).isEmpty) ∧
    ∃ trips : List (Str × Str × Str),
      (tokens.filter (fun t => !(pyStrip t).isEmpty)).mapM
        (fun t => processToken (pyStrip t) mf ml mlink af al alink) = .ok trips ∧
      as = trips.map (fun p => p.1) ∧ ms = trips.map (fun p => p.2.1) ∧
      als = trips.map (fun p => p.2.2) := by
  induction tokens generalizing as ms als with
  | nil =>
    rw [clean_bibtex_authors] at h
    simp only [Except.ok.injEq, Prod.mk.injEq] at h
    obtain ⟨rfl, rfl, rfl⟩ := h
    exact ⟨rfl, rfl, by simp, [], rfl, rfl, rfl, rfl⟩
  | cons t rest ih =>
    rw [clean_bibtex_authors] at h
    by_cases hskip : (pyStrip t).length < 1
    · rw [if_pos hskip] at h
      have hempty : (pyStrip t).isEmpty = true := by
        cases hs : pyStrip t with
        | nil => rfl
        | cons a b => rw [hs] at hskip; simp at hskip
      obtain ⟨h1, h2, h3, trips, h4, h5, h6, h7⟩ := ih _ _ _ h
      refine ⟨h1, h2, ?_, trips, ?_, h5, h6, h7⟩
      · rw [List.countP_cons, h3]
        simp [hempty]
      · rw [List.filter_cons]
        simp only [hempty, Bool.not_true, Bool.false_eq_true, if_false]
        exact h4
    · rw [if_neg hskip] at h
      have hnone : (pyStrip t).isEmpty = false := by
        cases hs : pyStrip t with
        | nil => rw [hs] at hskip; simp at hskip
        | cons a b => rfl
      cases hp : processToken (pyStrip t) mf ml mlink af al alink with
      | error e =>
        rw [hp, exceptBind_err] at h
        exact absurd h (by simp)
      | ok p =>
        rw [hp, exceptBind_ok] at h
        obtain ⟨a, m, al2⟩ := p
        dsimp only at h
        cases hr : clean_bibtex_authors rest mf ml mlink af al alink with
        | error e =>
          rw [hr, exceptBind_err] at h
          exact absurd h (by simp)
        | ok q =>
          obtain ⟨as', ms', als'⟩ := q
          rw [hr, exceptBind_ok] at h
          dsimp only at h
          simp only [Except.ok.injEq, Prod.mk.injEq] at h
          obtain ⟨rfl, rfl, rfl⟩ := h
          obtain ⟨h1, h2, h3, trips, h4, h5, h6, h7⟩ := ih _ _ _ hr
          refine ⟨by simp [h1], by simp [h2], ?_, (a, m, al2) :: trips, ?_, by simp [h5],
            by simp [h6], by simp [h7]⟩
          · rw [List.countP_cons]
            simp [hnone, h3]
          · rw [List.filter_cons]
            simp only [hnone, Bool.not_false, if_true]
            rw [List.mapM_cons, hp, exceptBind_ok, h4, exceptBind_ok]
            rfl

/-- Witness for `C9_author_order_lengths` on a one-author field with empty
rosters. -/
theorem C9_witness :
    clean_bibtex_authors ["Al Ba".data] [] [] [] [] [] [] =
      Except.ok (["\"Al Ba\"".data], ["".data], ["".data]) ∧
    ((["\"Al Ba\"".data] : List Str).length = (["".data] : List Str).length ∧
     (["\"Al Ba\"".data] : List Str).length = (["".data] : List Str).length ∧
     (["\"Al Ba\"".data] : List Str).length =
       (["Al Ba".data] : List Str).countP (fun t => !(pyStrip t).isEmpty) ∧
     ∃ trips : List (Str × Str × Str),
       ((["Al Ba".data] : List Str).filter (fun t => !(pyStrip t).isEmpty)).mapM
         (fun t => processToken (pyStrip t) [] [] [] [] [] []) = .ok trips ∧
       ["\"Al Ba\"".data] = trips.map (fun p => p.1) ∧
       ["".data] = trips.map (fun p => p.2.1) ∧
       ["".data] = trips.map (fun p => p.2.2)) :=
  ⟨by decide,
    C9_author_order_lengths ["Al Ba".data] [] [] [] [] [] []
      ["\"Al Ba\"".data] ["".data] ["".data] (by decide)⟩

/-- Dropping a while-prefix keeps a witness of the failing predicate. -/
theorem dropWhile_keeps_witness (p : Char → Bool) (s : Str)
    (h : ∃ c ∈ s, p c = false) : ∃ c ∈ s.dropWhile p, p c = false := by
  induction s with
  | nil => simp at h
  | cons a rest ih =>
    by_cases hp : p a
    · rw [List.dropWhile_cons, if_pos hp]
      obtain ⟨c, hc, hcp⟩ := h
      rcases List.mem_cons.mp hc with rfl | hcr
      · exact absurd hp (by simp [hcp])
      · exact ih ⟨c, hcr, hcp⟩
    · rw [List.dropWhile_cons, if_neg hp]
      obtain ⟨c, hc, hcp⟩ := h
      exact ⟨c, hc, hcp⟩

/-- A string containing a non-whitespace character does not strip to
empty. -/
theorem pyStrip_ne_nil (s : Str) (h : ∃ c ∈ s, isPySpace c = false) :
    pyStrip s ≠ [] := by
  rw [pyStrip]
  have h1 := dropWhile_keeps_witness isPySpace s h
  have h2 : ∃ c ∈ (s.dropWhile isPySpace).reverse, isPySpace c = false := by
    obtain ⟨c, hc, hcp⟩ := h1
    exact ⟨c, List.mem_reverse.mpr hc, hcp⟩
  have h3 := dropWhile_keeps_witness isPySpace _ h2
  obtain ⟨c, hc, _⟩ := h3
  intro hnil
  rw [List.reverse_eq_nil_iff] at hnil
  rw [hnil] at hc
  exact List.not_mem_nil c hc

/-- Stripping a whitespace-free string is the identity. -/
theorem pyStrip_of_no_space (s : Str) (h : ∀ c ∈ s, isPySpace c = false) :
    pyStrip s = s := by
  have hdw : ∀ t : Str, (∀ c ∈ t, isPySpace c = false) → t.dropWhile isPySpace = t := by
    intro t ht
    cases t with
    | nil => rfl
    | cons a rest =>
      rw [List.dropWhile_cons, if_neg (by simp [ht a (List.mem_cons_self a rest)])]
  rw [pyStrip, hdw s h, hdw _ (fun c hc => h c (List.mem_reverse.mp hc)), List.reverse_reverse]

/-- Every token produced by the whitespace split is non-empty and
whitespace-free. -/
theorem pySplitWsAux_tokens (s : Str) : ∀ (cur : Str), (∀ c ∈ cur, isPySpace c = false) →
    ∀ t ∈ pySplitWsAux cur s, t ≠ [] ∧ ∀ c ∈ t, isPySpace c = false := by
  induction s with
  | nil =>
    intro cur hcur t ht
    rw [pySplitWsAux] at ht
    by_cases hc : cur = ([] : Str)
    · rw [if_pos hc] at ht
      exact absurd ht (List.not_mem_nil t)
    · rw [if_neg hc] at ht
      rcases List.mem_cons.mp ht with rfl | hh
      · exact ⟨by simpa using hc, fun c hc2 => hcur c (List.mem_reverse.mp hc2)⟩
      · exact absurd hh (List.not_mem_nil t)
  | cons a rest ih =>
    intro cur hcur t ht
    rw [pySplitWsAux] at ht
    by_cases hsp : isPySpace a
    · rw [if_pos hsp] at ht
      by_cases hc : cur = ([] : Str)
      · rw [if_pos hc] at ht
        exact ih [] (by simp) t ht
      · rw [if_neg hc] at ht
        rcases List.mem_cons.mp ht with rfl | hh
        · exact ⟨by simpa using hc, fun c hc2 => hcur c (List.mem_reverse.mp hc2)⟩
        · exact ih [] (by simp) t hh
    · rw [if_neg hsp] at ht
      refine ih (a :: cur) ?_ t ht
      intro c hc
      rcases List.mem_cons.mp hc with rfl | hcc
      · simpa using hsp
      · exact hcur c hcc
/-- Every token of `pySplitWs` is non-empty and whitespace-free. -/
theorem pySplitWs_tokens (s : Str) (t : Str) (ht : t ∈ pySplitWs s) :
    t ≠ [] ∧ ∀ c ∈ t, isPySpace c = false :=
  pySplitWsAux_tokens s [] (by simp) t ht

/-- `dotExpand` of a non-empty whitespace-free token still contains a
non-whitespace character. -/
theorem dotExpand_witness (t : Str) (hne : t ≠ []) (hns : ∀ c ∈ t, isPySpace c = false) :
    ∃ c ∈ dotExpand t, isPySpace c = false := by
  cases t with
  | nil => exact absurd rfl hne
  | cons a rest =>
    rw [dotExpand]
    by_cases ha : a = '.'
    · subst ha
      exact ⟨'.', by simp, by decide⟩
    · refine ⟨a, ?_, hns a (List.mem_cons_self a rest)⟩
      simp [ha]

/-- Every first-name token produced by the name-splitting step is
non-empty. -/
theorem splitNameRaw_fns_ne_nil (s : Str) :
    ∀ t ∈ (splitNameRaw s).2, t ≠ [] := by
  rw [splitNameRaw]
  by_cases hc : ',' ∈ s
  · rw [if_pos hc]
    intro t ht
    simp only [List.mem_map] at ht
    obtain ⟨u, hu, rfl⟩ := ht
    obtain ⟨hne, hns⟩ := pySplitWs_tokens _ u hu
    rw [pyStrip_of_no_space u hns]
    exact hne
  · rw [if_neg hc]
    dsimp only
    split
    next ln hl =>
      intro t ht
      simp only [List.mem_map] at ht
      obtain ⟨u, hu, rfl⟩ := ht
      have humem : u ∈ pySplitWs s := (List.dropLast_sublist _).mem hu
      obtain ⟨hne, hns⟩ := pySplitWs_tokens _ u humem
      exact pyStrip_ne_nil _ (dotExpand_witness u hne hns)
    next hl =>
      simp

/-- The particle loop only keeps elements of the incoming first-name
list. -/
theorem particleLoopB_subset : ∀ (fuel : Nat) (fns : List Str) (ln : Str) (idx : Nat),
    ∀ x ∈ (particleLoopB fuel fns ln idx).1, x ∈ fns := by
  intro fuel
  induction fuel with
  | zero => intro fns ln idx x hx; exact hx
  | succ fuel ih =>
    intro fns ln idx x hx
    rw [particleLoopB] at hx
    cases hg : fns.get? idx with
    | none => rw [hg] at hx; exact hx
    | some item =>
      rw [hg] at hx
      dsimp only at hx
      by_cases hp : item ∈ particles
      · rw [if_pos hp] at hx
        cases hl : fns.getLast? with
        | none => rw [hl] at hx; exact hx
        | some popped =>
          rw [hl] at hx
          exact (List.dropLast_sublist fns).mem (ih _ _ _ x hx)
      · rw [if_neg hp] at hx
        exact ih _ _ _ x hx

/-- The suffix step only keeps elements of the incoming first-name list. -/
theorem applySuffix_subset (ln : Str) (fns : List Str) (ln1 : Str) (fns1 : List Str)
    (h : applySuffix ln fns = .ok (ln1, fns1)) : ∀ x ∈ fns1, x ∈ fns := by
  rw [applySuffix] at h
  by_cases hmem : ln ∈ suffixes
  · rw [if_pos hmem] at h
    cases hl : fns.getLast? with
    | none => rw [hl] at h; exact absurd h (by simp)
    | some popped =>
      rw [hl] at h
      simp only [Except.ok.injEq, Prod.mk.injEq] at h
      obtain ⟨rfl, rfl⟩ := h
      exact fun x hx => (List.dropLast_sublist fns).mem hx
  · rw [if_neg hmem] at h
    simp only [Except.ok.injEq, Prod.mk.injEq] at h
    obtain ⟨rfl, rfl⟩ := h
    exact fun x hx => hx

/-- An absent last name yields no candidates. -/
theorem candIdxs_nil (ros_last : List Str) (ln : Str) (h : ln ∉ ros_last) :
    candIdxs ros_last ln = [] := by
  rw [candIdxs]
  rw [List.filter_eq_nil_iff]
  intro i hi
  simp only [List.mem_range] at hi
  simp only [decide_eq_true_eq]
  intro hEq
  refine h ?_
  rw [← hEq, List.getD_eq_getElem?_getD, List.getElem?_eq_getElem hi]
  exact List.getElem_mem hi

/-- A roster query succeeds whenever there is a non-empty first given name,
or the queried last name does not occur in the roster at all. -/
theorem rosterMatch_ok (ros_last ros_first ros_link : List Str) (ln : Str) (fns : List Str)
    (h1 : ros_last.length ≤ ros_first.length) (h2 : ros_last.length ≤ ros_link.length)
    (hne : ∀ f ∈ ros_first, f ≠ [])
    (hcase : (∃ f0 fns2, fns = f0 :: fns2 ∧ f0 ≠ []) ∨ ln ∉ ros_last) :
    ∃ v, rosterMatch ros_last ros_first ros_link ln fns = .ok v := by
  rcases hcase with ⟨f0, fns2, rfl, hf0⟩ | hnot
  · rw [rosterMatch]
    rw [matchLoop_eq_find _ _ _ _ hf0
      (fun i hi => Nat.lt_of_lt_of_le ((mem_candIdxs _ _ _).mp hi).1 h1) hne, exceptBind_ok]
    cases hfind : (candIdxs ros_last ln).find? (candHit ros_first f0) with
    | none => exact ⟨[], rfl⟩
    | some i =>
      have hmem : i ∈ candIdxs ros_last ln := List.mem_of_find?_eq_some hfind
      have hi : i < ros_link.length :=
        Nat.lt_of_lt_of_le ((mem_candIdxs _ _ _).mp hmem).1 h2
      exact ⟨ros_link.getD i [], pyGet_lt _ _ _ hi⟩
  · rw [rosterMatch, candIdxs_nil _ _ hnot]
    exact ⟨[], rfl⟩

/-- A stripped non-empty token satisfying `tokOK` is processed without an
exception, given parallel rosters with non-empty first names. -/
theorem processToken_ok (s : Str) (mf ml mlink af al alink : List Str)
    (hm1 : ml.length ≤ mf.length) (hm2 : ml.length ≤ mlink.length)
    (ha1 : al.length ≤ af.length) (ha2 : al.length ≤ alink.length)
    (hmf : ∀ f ∈ mf, f ≠ []) (haf : ∀ f ∈ af, f ≠ [])
    (hs : s ≠ []) (htok : tokOK s ml al = true) :
    ∃ v, processToken s mf ml mlink af al alink = .ok v := by
  rw [tokOK, if_neg hs] at htok
  rcases hsp : splitNameRaw s with ⟨ln0, fns0⟩
  rw [hsp] at htok
  dsimp only at htok
  by_cases hsuf : ln0 ∈ suffixes ∧ fns0 = ([] : List Str)
  · rw [if_pos hsuf] at htok
    exact absurd htok (by simp)
  · rw [if_neg hsuf] at htok
    cases hap : applySuffix ln0 fns0 with
    | error e =>
      rw [hap] at htok
      exact absurd htok (by simp)
    | ok p =>
      obtain ⟨ln1, fns1⟩ := p
      rw [hap] at htok
      dsimp only at htok
      rcases hpl : particleLoop fns1 ln1 with ⟨fns2, ln2⟩
      rw [hpl] at htok
      dsimp only at htok
      have hfns2mem : ∀ x ∈ fns2, x ≠ [] := by
        intro x hx
        have h1 : x ∈ fns1 := by
          have := particleLoopB_subset fns1.length fns1 ln1 0 x
          rw [particleLoop] at hpl
          rw [hpl] at this
          exact this hx
        have h2 : x ∈ fns0 := applySuffix_subset ln0 fns0 ln1 fns1 hap x h1
        have h3 := splitNameRaw_fns_ne_nil s x
        rw [hsp] at h3
        exact h3 h2
      have hmm : (∃ f0 fns3, fns2 = f0 :: fns3 ∧ f0 ≠ []) ∨ (ln2 ∉ ml ∧ ln2 ∉ al) := by
        cases hf : fns2 with
        | nil =>
          rw [hf] at htok
          simp only [List.isEmpty_nil, Bool.not_true, Bool.false_or, Bool.and_eq_true,
            Bool.not_eq_true', decide_eq_false_iff_not] at htok
          exact Or.inr htok
        | cons f0 fns3 =>
          exact Or.inl ⟨f0, fns3, rfl, hfns2mem f0 (hf ▸ List.mem_cons_self f0 fns3)⟩
      obtain ⟨v1, hv1⟩ : ∃ v, rosterMatch ml mf mlink ln2 fns2 = .ok v := by
        rcases hmm with hl | ⟨hr, _⟩
        · exact rosterMatch_ok ml mf mlink ln2 fns2 hm1 hm2 hmf (Or.inl hl)
        · exact rosterMatch_ok ml mf mlink ln2 fns2 hm1 hm2 hmf (Or.inr hr)
      obtain ⟨v2, hv2⟩ : ∃ v, rosterMatch al af alink ln2 fns2 = .ok v := by
        rcases hmm with hl | ⟨_, hr⟩
        · exact rosterMatch_ok al af alink ln2 fns2 ha1 ha2 haf (Or.inl hl)
        · exact rosterMatch_ok al af alink ln2 fns2 ha1 ha2 haf (Or.inr hr)
      rw [processToken, hsp]
      dsimp only
      rw [hap, exceptBind_ok]
      dsimp only
      rw [hpl]
      dsimp only
      rw [hv1, exceptBind_ok, hv2, exceptBind_ok]
      exact ⟨_, rfl⟩

/-- Claim C3 (amended): `clean_bibtex_authors` terminates normally —
raising no exception — on every input whose non-empty tokens satisfy
`tokOK` (the suffix step finds a first name to pop, and a token left with
no first names has a last name absent from both rosters), provided the
roster lists are parallel and roster first names are non-empty.  Outside
these conditions it can raise `IndexError`, e.g. on the bare token
`"jr"`. -/
theorem C3_amended (tokens mf ml mlink af al alink : List Str)
    (hm1 : ml.length ≤ mf.length) (hm2 : ml.length ≤ mlink.length)
    (ha1 : al.length ≤ af.length) (ha2 : al.length ≤ alink.length)
    (hmf : ∀ f ∈ mf, f ≠ []) (haf : ∀ f ∈ af, f ≠ [])
    (htok : ∀ t ∈ tokens, tokOK (pyStrip t) ml al = true) :
    ∃ r, clean_bibtex_authors tokens mf ml mlink af al alink = .ok r := by
  induction tokens with
  | nil => exact ⟨([], [], []), rfl⟩
  | cons t rest ih =>
    rw [clean_bibtex_authors]
    by_cases hskip : (pyStrip t).length < 1
    · rw [if_pos hskip]
      exact ih (fun u hu => htok u (List.mem_cons_of_mem _ hu))
    · rw [if_neg hskip]
      have hs : pyStrip t ≠ [] := by
        intro hh
        rw [hh] at hskip
        simp at hskip
      obtain ⟨⟨a, m, al2⟩, hv⟩ := processToken_ok (pyStrip t) mf ml mlink af al alink
        hm1 hm2 ha1 ha2 hmf haf hs (htok t (List.mem_cons_self t rest))
      obtain ⟨⟨as, ms, als⟩, hr⟩ := ih (fun u hu => htok u (List.mem_cons_of_mem _ hu))
      rw [hv, exceptBind_ok]
      dsimp only
      rw [hr, exceptBind_ok]
      exact ⟨_, rfl⟩

/-- Witness for `C3_amended`: a bare-last-name token with rosters not
containing that last name. -/
theorem C3_amended_witness :
    (∀ t ∈ (["Smith".data, " ".data] : List Str), tokOK (pyStrip t) ["Jones".data] ["Doe".data] = true) ∧
    ∃ r, clean_bibtex_authors ["Smith".data, " ".data]
      ["J".data] ["Jones".data] ["jo".data] ["D".data] ["Doe".data] ["do".data] = .ok r :=
  ⟨by decide,
    C3_amended ["Smith".data, " ".data] ["J".data] ["Jones".data] ["jo".data]
      ["D".data] ["Doe".data] ["do".data]
      (by decide) (by decide) (by decide) (by decide) (by decide) (by decide) (by decide)⟩

/-- Characters with equal code points are equal. -/
theorem charToNat_inj {c d : Char} (h : c.toNat = d.toNat) : c = d := Char.ext (UInt32.ext h)

/-- Code point of `Char.ofNat` below the surrogate range. -/
theorem charOfNat_toNat {n : Nat} (h : n < 55296) : (Char.ofNat n).toNat = n := by
  have hv : n.isValidChar := Or.inl h
  rw [Char.ofNat, dif_pos hv]
  rfl

/-- Unfolding of `isUpperA` to arithmetic. -/
theorem isUpperA_iff (c : Char) : isUpperA c = true ↔ 65 ≤ c.toNat ∧ c.toNat ≤ 90 := by
  simp [isUpperA]

/-- Unfolding of `isLowerA` to arithmetic. -/
theorem isLowerA_iff (c : Char) : isLowerA c = true ↔ 97 ≤ c.toNat ∧ c.toNat ≤ 122 := by
  simp [isLowerA]

/-- Unfolding of `isDigitA` to arithmetic. -/
theorem isDigitA_iff (c : Char) : isDigitA c = true ↔ 48 ≤ c.toNat ∧ c.toNat ≤ 57 := by
  simp [isDigitA]

/-- Equality with the hyphen character, arithmetically. -/
theorem eq_dash_iff (c : Char) : c = '-' ↔ c.toNat = 45 := by
  constructor
  · intro h; rw [h]; rfl
  · intro h; exact charToNat_inj h

/-- Lowercasing an uppercase letter adds 32 to its code point. -/
theorem toLowerA_toNat_of_upper (c : Char) (h : isUpperA c = true) :
    (toLowerA c).toNat = c.toNat + 32 := by
  rw [toLowerA, if_pos h]
  obtain ⟨h1, h2⟩ := (isUpperA_iff c).mp h
  exact charOfNat_toNat (by omega)

/-- Lowercasing fixes a non-uppercase character. -/
theorem toLowerA_of_not_upper (c : Char) (h : isUpperA c = false) : toLowerA c = c := by
  rw [toLowerA, if_neg (by simp [h])]

/-- The output of `toLowerA` is never uppercase. -/
theorem toLowerA_not_upper (c : Char) : isUpperA (toLowerA c) = false := by
  by_cases h : isUpperA c = true
  · have h2 := toLowerA_toNat_of_upper c h
    obtain ⟨h3, h4⟩ := (isUpperA_iff c).mp h
    rw [← Bool.not_eq_true]
    rw [isUpperA_iff]
    omega
  · rw [toLowerA_of_not_upper c (by simpa using h)]
    simpa using h

/-- `toLowerA` preserves the digit classification. -/
theorem isDigitA_toLowerA (c : Char) : isDigitA (toLowerA c) = isDigitA c := by
  by_cases h : isUpperA c = true
  · have h2 := toLowerA_toNat_of_upper c h
    obtain ⟨h3, h4⟩ := (isUpperA_iff c).mp h
    have e1 : isDigitA (toLowerA c) = false := by
      rw [← Bool.not_eq_true, isDigitA_iff]; omega
    have e2 : isDigitA c = false := by
      rw [← Bool.not_eq_true, isDigitA_iff]; omega
    rw [e1, e2]
  · rw [toLowerA_of_not_upper c (by simpa using h)]

/-- `toLowerA` maps to and from the hyphen only at the hyphen. -/
theorem toLowerA_eq_dash_iff (c : Char) : toLowerA c = '-' ↔ c = '-' := by
  by_cases h : isUpperA c = true
  · have h2 := toLowerA_toNat_of_upper c h
    obtain ⟨h3, h4⟩ := (isUpperA_iff c).mp h
    constructor
    · intro hd
      rw [eq_dash_iff] at hd
      omega
    · intro hd
      rw [eq_dash_iff] at hd
      omega
  · rw [toLowerA_of_not_upper c (by simpa using h)]

/-- An uppercase letter lowercases to a lowercase letter. -/
theorem isLowerA_toLowerA_of_upper (c : Char) (h : isUpperA c = true) :
    isLowerA (toLowerA c) = true := by
  have h2 := toLowerA_toNat_of_upper c h
  obtain ⟨h3, h4⟩ := (isUpperA_iff c).mp h
  rw [isLowerA_iff]
  omega

/-- Head-pair check used by `chainB`. -/
def hdOK (R : Char → Char → Bool) (a : Char) : Str → Bool
  | [] => true
  | b :: _ => R a b

/-- All adjacent pairs of a string satisfy the relation `R`. -/
def chainB (R : Char → Char → Bool) : Str → Bool
  | [] => true
  | a :: l => hdOK R a l && chainB R l

/-- Tail of a chain. -/
theorem chainB_tail {R : Char → Char → Bool} {a : Char} {l : Str}
    (h : chainB R (a :: l) = true) : chainB R l = true := by
  rw [chainB, Bool.and_eq_true] at h
  exact h.2

/-- Head pair of a chain. -/
theorem chainB_pair {R : Char → Char → Bool} {a b : Char} {l : Str}
    (h : chainB R (a :: b :: l) = true) : R a b = true := by
  rw [chainB, Bool.and_eq_true] at h
  exact h.1

/-- Build a chain from a head check and a tail chain. -/
theorem chainB_cons {R : Char → Char → Bool} {a : Char} {l : Str}
    (h1 : hdOK R a l = true) (h2 : chainB R l = true) : chainB R (a :: l) = true := by
  rw [chainB, Bool.and_eq_true]
  exact ⟨h1, h2⟩

/-- A pair inside a chained string satisfies the relation. -/
theorem chainB_append_pair {R : Char → Char → Bool} {a b : Char} (u v : Str)
    (h : chainB R (u ++ a :: b :: v) = true) : R a b = true := by
  induction u with
  | nil => exact chainB_pair h
  | cons c u' ih => exact ih (chainB_tail h)

/-- Chains transport along maps that respect the relations. -/
theorem chainB_map {R R2 : Char → Char → Bool} (f : Char → Char) (l : Str)
    (hf : ∀ a b, R a b = true → R2 (f a) (f b) = true)
    (h : chainB R l = true) : chainB R2 (l.map f) = true := by
  induction l with
  | nil => rfl
  | cons a l ih =>
    rw [List.map_cons]
    refine chainB_cons ?_ (ih (chainB_tail h))
    cases l with
    | nil => rfl
    | cons b l2 =>
      rw [List.map_cons, hdOK]
      exact hf a b (chainB_pair h)

/-- Combine two chains over the same string. -/
theorem chainB_and {R R2 : Char → Char → Bool} (l : Str)
    (h1 : chainB R l = true) (h2 : chainB R2 l = true) :
    chainB (fun a b => R a b && R2 a b) l = true := by
  induction l with
  | nil => rfl
  | cons a l ih =>
    refine chainB_cons ?_ (ih (chainB_tail h1) (chainB_tail h2))
    cases l with
    | nil => rfl
    | cons b l2 =>
      rw [hdOK, Bool.and_eq_true]
      exact ⟨chainB_pair h1, chainB_pair h2⟩

/-- Weaken the relation of a chain. -/
theorem chainB_impl {R R2 : Char → Char → Bool} (l : Str)
    (hf : ∀ a b, R a b = true → R2 a b = true)
    (h : chainB R l = true) : chainB R2 l = true := by
  induction l with
  | nil => rfl
  | cons a l ih =>
    refine chainB_cons ?_ (ih (chainB_tail h))
    cases l with
    | nil => rfl
    | cons b l2 => exact hf a b (chainB_pair h)

/-- Output alphabet of lowercased slugs: lowercase letters, digits and the
hyphen. -/
def slugChar (c : Char) : Bool := isLowerA c || isDigitA c || c == '-'

/-- No pair of adjacent hyphens. -/
def noDD (x y : Char) : Bool := !(x == '-' && y == '-')

/-- A digit is preceded only by a digit or a hyphen. -/
def ndOK (x y : Char) : Bool := !isDigitA y || (isDigitA x || x == '-')

/-- A digit is followed only by a digit or a hyphen. -/
def dsOK (x y : Char) : Bool := !isDigitA x || (isDigitA y || y == '-')

/-- No letter-digit or digit-letter adjacency. -/
def sepOK (x y : Char) : Bool := !(isDigitA x && isAlphaA y) && !(isAlphaA x && isDigitA y)

/-- Head of the string is a hyphen. -/
def headIsDash : Str → Bool
  | [] => false
  | c :: _ => c == '-'

/-- A digit is followed by a digit, or by the inserted `\ -` pair, or ends
the string (invariant of the raw regex outputs, before filtering). -/
def dOK1 (a : Char) : Str → Bool
  | [] => true
  | b :: r => !isDigitA a || isDigitA b || (b == '\\' && headIsDash r)

/-- `dOK1` at every position. -/
def digitSuccOK : Str → Bool
  | [] => true
  | a :: l => dOK1 a l && digitSuccOK l

/-- Tail of a `digitSuccOK` string. -/
theorem digitSuccOK_tail {a : Char} {l : Str} (h : digitSuccOK (a :: l) = true) :
    digitSuccOK l = true := by
  rw [digitSuccOK, Bool.and_eq_true] at h
  exact h.2

/-- Head of a `digitSuccOK` string. -/
theorem digitSuccOK_head {a : Char} {l : Str} (h : digitSuccOK (a :: l) = true) :
    dOK1 a l = true := by
  rw [digitSuccOK, Bool.and_eq_true] at h
  exact h.1

/-- Build `digitSuccOK` from its head and tail. -/
theorem digitSuccOK_cons {a : Char} {l : Str} (h1 : dOK1 a l = true)
    (h2 : digitSuccOK l = true) : digitSuccOK (a :: l) = true := by
  rw [digitSuccOK, Bool.and_eq_true]
  exact ⟨h1, h2⟩

/-- `dashND` keeps the head character. -/
theorem dashND_head (c : Char) (r : Str) : ∃ tl, dashND (c :: r) = c :: tl := by
  cases r with
  | nil => exact ⟨[], rfl⟩
  | cons c2 rest =>
    rw [dashND]
    by_cases h : ¬ isDigitA c ∧ isDigitA c2
    · rw [if_pos h]; exact ⟨_, rfl⟩
    · rw [if_neg h]; exact ⟨_, rfl⟩

/-- `dashDN` keeps the head character. -/
theorem dashDN_head (c : Char) (r : Str) : ∃ tl, dashDN (c :: r) = c :: tl := by
  cases r with
  | nil => exact ⟨[], rfl⟩
  | cons c2 rest =>
    rw [dashDN]
    by_cases h : isDigitA c ∧ ¬ isDigitA c2
    · rw [if_pos h]; exact ⟨_, rfl⟩
    · rw [if_neg h]; exact ⟨_, rfl⟩

/-- In the output of `dashND`, every digit is preceded by a digit, a
hyphen, or nothing. -/
theorem chainB_ndOK_dashND (l : Str) : chainB ndOK (dashND l) = true := by
  induction l using dashND.induct with
  | case1 => rfl
  | case2 c => rfl
  | case3 c1 c2 rest h ih =>
    rw [dashND, if_pos h]
    obtain ⟨tl, htl⟩ := dashND_head c2 rest
    rw [htl] at ih ⊢
    have hb : isDigitA '\\' = false := by decide
    refine chainB_cons (by simp [hdOK, ndOK, hb]) ?_
    refine chainB_cons (by simp [hdOK, ndOK]; decide) ?_
    exact chainB_cons (by simp [hdOK, ndOK]) ih
  | case4 c1 c2 rest h ih =>
    rw [dashND, if_neg h]
    obtain ⟨tl, htl⟩ := dashND_head c2 rest
    rw [htl] at ih ⊢
    refine chainB_cons ?_ ih
    rw [hdOK, ndOK]
    by_cases hd2 : isDigitA c2 = true
    · have hd1 : isDigitA c1 = true := by
        by_contra hh
        exact h ⟨by simpa using hh, hd2⟩
      simp [hd1]
    · simp [Bool.of_not_eq_true hd2]

/-- `dashDN` preserves the digit-predecessor invariant. -/
theorem chainB_ndOK_dashDN (l : Str) (h : chainB ndOK l = true) :
    chainB ndOK (dashDN l) = true := by
  induction l using dashDN.induct with
  | case1 => rfl
  | case2 c => rfl
  | case3 c1 c2 rest hc ih =>
    rw [dashDN, if_pos hc]
    obtain ⟨tl, htl⟩ := dashDN_head c2 rest
    have ih2 := ih (chainB_tail h)
    rw [htl] at ih2 ⊢
    have hb : isDigitA '\\' = false := by decide
    refine chainB_cons (by simp [hdOK, ndOK, hb]) ?_
    refine chainB_cons (by simp [hdOK, ndOK]; decide) ?_
    refine chainB_cons ?_ ih2
    rw [hdOK, ndOK]
    simp [Bool.of_not_eq_true (by simpa using hc.2 : ¬ isDigitA c2 = true)]
  | case4 c1 c2 rest hc ih =>
    rw [dashDN, if_neg hc]
    obtain ⟨tl, htl⟩ := dashDN_head c2 rest
    have ih2 := ih (chainB_tail h)
    rw [htl] at ih2 ⊢
    refine chainB_cons ?_ ih2
    rw [hdOK]
    exact chainB_pair h

/-- Uppercase letters are not digits. -/
theorem upper_not_digit (c : Char) (h : isUpperA c = true) : isDigitA c = false := by
  obtain ⟨h1, h2⟩ := (isUpperA_iff c).mp h
  rw [← Bool.not_eq_true, isDigitA_iff]
  omega

/-- Lowercase letters are not digits. -/
theorem lower_not_digit (c : Char) (h : isLowerA c = true) : isDigitA c = false := by
  obtain ⟨h1, h2⟩ := (isLowerA_iff c).mp h
  rw [← Bool.not_eq_true, isDigitA_iff]
  omega

/-- The backslash is not a digit. -/
theorem digit_backslash : isDigitA '\\' = false := by decide

/-- The hyphen is not a digit. -/
theorem digit_dash : isDigitA '-' = false := by decide

/-- The camel-case scan preserves the digit-predecessor invariant. -/
theorem chainB_ndOK_dashCamelAux (rest : Str) : ∀ prev : Char,
    chainB ndOK (prev :: rest) = true →
    chainB ndOK (prev :: dashCamelAux prev rest) = true := by
  induction rest with
  | nil => intro prev h; exact h
  | cons c rest' ih =>
    intro prev h
    rw [dashCamelAux]
    by_cases hins : isUpperA c ∧ (isLowerA prev ∨ nextLower rest' = true)
    · rw [if_pos hins]
      have hcu : isDigitA c = false := upper_not_digit c hins.1
      refine chainB_cons (by simp [hdOK, ndOK, digit_backslash]) ?_
      refine chainB_cons (by simp [hdOK, ndOK, digit_dash]) ?_
      refine chainB_cons (by simp [hdOK, ndOK, hcu]) ?_
      exact ih c (chainB_tail h)
    · rw [if_neg hins]
      refine chainB_cons ?_ (ih c (chainB_tail h))
      rw [hdOK]
      exact chainB_pair h

/-- `dashCamel` preserves the digit-predecessor invariant. -/
theorem chainB_ndOK_dashCamel (l : Str) (h : chainB ndOK l = true) :
    chainB ndOK (dashCamel l) = true := by
  cases l with
  | nil => rfl
  | cons c rest => exact chainB_ndOK_dashCamelAux rest c h

/-- In the output of `dashDN`, every digit is followed by a digit, by the
inserted backslash-hyphen pair, or by nothing. -/
theorem digitSuccOK_dashDN (l : Str) : digitSuccOK (dashDN l) = true := by
  induction l using dashDN.induct with
  | case1 => rfl
  | case2 c => rfl
  | case3 c1 c2 rest hc ih =>
    rw [dashDN, if_pos hc]
    obtain ⟨tl, htl⟩ := dashDN_head c2 rest
    rw [htl] at ih ⊢
    refine digitSuccOK_cons (by simp [dOK1, headIsDash]) ?_
    refine digitSuccOK_cons (by simp [dOK1, digit_backslash]) ?_
    exact digitSuccOK_cons (by simp [dOK1, digit_dash]) ih
  | case4 c1 c2 rest hc ih =>
    rw [dashDN, if_neg hc]
    obtain ⟨tl, htl⟩ := dashDN_head c2 rest
    rw [htl] at ih ⊢
    refine digitSuccOK_cons ?_ ih
    rw [dOK1]
    by_cases hd1 : isDigitA c1 = true
    · have hd2 : isDigitA c2 = true := by
        by_contra hh
        exact hc ⟨hd1, by simpa using hh⟩
      simp [hd2]
    · simp [Bool.of_not_eq_true hd1]

/-- A leading hyphen survives the camel-case scan. -/
theorem headIsDash_dashCamelAux (prev : Char) (l : Str) (h : headIsDash l = true) :
    headIsDash (dashCamelAux prev l) = true := by
  cases l with
  | nil => exact h
  | cons c r =>
    rw [headIsDash] at h
    have hc : c = '-' := by simpa using h
    subst hc
    rw [dashCamelAux, if_neg (by rintro ⟨h1, _⟩; exact absurd h1 (by decide))]
    rfl

/-- The camel-case scan preserves the digit-successor invariant. -/
theorem digitSuccOK_dashCamelAux (rest : Str) : ∀ prev : Char,
    digitSuccOK (prev :: rest) = true →
    digitSuccOK (prev :: dashCamelAux prev rest) = true := by
  induction rest with
  | nil => intro prev h; exact h
  | cons c rest' ih =>
    intro prev h
    rw [dashCamelAux]
    by_cases hins : isUpperA c ∧ (isLowerA prev ∨ nextLower rest' = true)
    · rw [if_pos hins]
      refine digitSuccOK_cons (by simp [dOK1, headIsDash]) ?_
      refine digitSuccOK_cons (by simp [dOK1, digit_backslash]) ?_
      refine digitSuccOK_cons (by simp [dOK1, digit_dash]) ?_
      exact ih c (digitSuccOK_tail h)
    · rw [if_neg hins]
      refine digitSuccOK_cons ?_ (ih c (digitSuccOK_tail h))
      have hd := digitSuccOK_head h
      rw [dOK1] at hd ⊢
      by_cases hp : isDigitA prev = true
      · simp only [hp, Bool.not_true, Bool.false_or] at hd ⊢
        rcases Bool.or_eq_true_iff.mp hd with hcd | hbs
        · simp [hcd]
        · rw [Bool.and_eq_true] at hbs
          obtain ⟨hc1, hc2⟩ := hbs
          refine Bool.or_eq_true_iff.mpr (Or.inr ?_)
          rw [Bool.and_eq_true]
          exact ⟨hc1, headIsDash_dashCamelAux c rest' hc2⟩
      · simp [Bool.of_not_eq_true hp]

/-- `dashCamel` preserves the digit-successor invariant. -/
theorem digitSuccOK_dashCamel (l : Str) (h : digitSuccOK l = true) :
    digitSuccOK (dashCamel l) = true := by
  cases l with
  | nil => rfl
  | cons c rest => exact digitSuccOK_dashCamelAux rest c h

/-- Digits survive the slug filter. -/
theorem goodS_of_digit (c : Char) (h : isDigitA c = true) : goodS c = true := by
  simp [goodS, isAlnumA, h]

/-- Letters are not digits. -/
theorem alpha_not_digit (c : Char) (h : isAlphaA c = true) : isDigitA c = false := by
  rcases Bool.or_eq_true_iff.mp (by simpa [isAlphaA] using h) with hu | hl
  · exact upper_not_digit c hu
  · exact lower_not_digit c hl

/-- Letters are not the hyphen. -/
theorem alpha_ne_dash (c : Char) (h : isAlphaA c = true) : c ≠ '-' := by
  intro hd
  rw [hd] at h
  exact absurd h (by decide)

/-- Slug-filter characters are not whitespace. -/
theorem goodS_no_space (c : Char) (h : goodS c = true) : isPySpace c = false := by
  by_contra hc
  rw [Bool.not_eq_false] at hc
  simp only [isPySpace, Bool.or_eq_true, beq_iff_eq] at hc
  rcases hc with ((((rfl | rfl) | rfl) | rfl) | rfl) | rfl <;> exact absurd h (by decide)

/-- Together, the digit-predecessor and digit-successor invariants forbid
letter-digit adjacency. -/
theorem nd_ds_imp_sep (a b : Char) (h : (ndOK a b && dsOK a b) = true) : sepOK a b = true := by
  rw [Bool.and_eq_true] at h
  obtain ⟨hnd, hds⟩ := h
  rw [sepOK, Bool.and_eq_true]
  constructor
  · rw [Bool.not_eq_true']
    rw [Bool.and_eq_false_iff]
    by_cases hda : isDigitA a = true
    · rw [dsOK, hda] at hds
      simp only [Bool.not_true, Bool.false_or, Bool.or_eq_true, beq_iff_eq] at hds
      rcases hds with hdb | hbd
      · right
        rw [← Bool.not_eq_true]
        intro hb
        exact absurd hdb (by simp [alpha_not_digit b hb])
      · right
        rw [← Bool.not_eq_true]
        intro hb
        exact absurd hbd (alpha_ne_dash b hb)
    · left
      exact Bool.of_not_eq_true hda
  · rw [Bool.not_eq_true']
    rw [Bool.and_eq_false_iff]
    by_cases hdb : isDigitA b = true
    · rw [ndOK, hdb] at hnd
      simp only [Bool.not_true, Bool.false_or, Bool.or_eq_true, beq_iff_eq] at hnd
      rcases hnd with hda | had
      · left
        rw [← Bool.not_eq_true]
        intro ha
        exact absurd hda (by simp [alpha_not_digit a ha])
      · left
        rw [← Bool.not_eq_true]
        intro ha
        exact absurd had (alpha_ne_dash a ha)
    · right
      exact Bool.of_not_eq_true hdb

/-- If the first kept character is a digit, it already headed the
unfiltered string (its predecessors would have been kept). -/
theorem filter_head_digit (l : Str) (h : chainB ndOK l = true) (y : Char)
    (hy : (l.filter goodS).head? = some y) (hd : isDigitA y = true) :
    l.head? = some y := by
  induction l with
  | nil => simp at hy
  | cons c rest ih =>
    rw [List.filter_cons] at hy
    by_cases hg : goodS c = true
    · rw [if_pos hg] at hy
      simpa using hy
    · rw [if_neg (by simpa using hg)] at hy
      have hr := ih (chainB_tail h) hy
      cases rest with
      | nil => simp at hr
      | cons b r2 =>
        have hb : b = y := by simpa using hr
        subst hb
        have hpair := chainB_pair h
        rw [ndOK, hd] at hpair
        simp only [Bool.not_true, Bool.false_or, Bool.or_eq_true, beq_iff_eq] at hpair
        rcases hpair with hcd | hcd
        · exact absurd (goodS_of_digit c hcd) hg
        · subst hcd
          exact absurd (by decide : goodS '-' = true) hg

/-- The digit-predecessor invariant transfers through the slug filter. -/
theorem chainB_ndOK_filter (l : Str) (h : chainB ndOK l = true) :
    chainB ndOK (l.filter goodS) = true := by
  induction l with
  | nil => rfl
  | cons c rest ih =>
    rw [List.filter_cons]
    by_cases hg : goodS c = true
    · rw [if_pos hg]
      refine chainB_cons ?_ (ih (chainB_tail h))
      cases hf : rest.filter goodS with
      | nil => rfl
      | cons y tl =>
        rw [hdOK]
        by_cases hd : isDigitA y = true
        · have hhead := filter_head_digit rest (chainB_tail h) y (by rw [hf]; rfl) hd
          cases rest with
          | nil => simp at hhead
          | cons b r2 =>
            have hb : b = y := by simpa using hhead
            subst hb
            exact chainB_pair h
        · rw [ndOK, Bool.of_not_eq_true hd]
          rfl
    · rw [if_neg (by simpa using hg)]
      exact ih (chainB_tail h)

/-- After a kept digit, the next kept character is a digit or the hyphen
of the inserted backslash-hyphen pair. -/
theorem filter_after_digit (d : Char) (l : Str) (h : digitSuccOK (d :: l) = true)
    (hd : isDigitA d = true) (y : Char) (tl : List Char)
    (hy : l.filter goodS = y :: tl) :
    isDigitA y = true ∨ y = '-' := by
  have h1 := digitSuccOK_head h
  cases l with
  | nil => simp at hy
  | cons b r =>
    rw [dOK1, hd] at h1
    simp only [Bool.not_true, Bool.false_or, Bool.or_eq_true, Bool.and_eq_true, beq_iff_eq] at h1
    rcases h1 with hdb | ⟨hbs, hdash⟩
    · rw [List.filter_cons, if_pos (goodS_of_digit b hdb)] at hy
      have : b = y := by simpa using congrArg List.head? hy
      subst this
      exact Or.inl hdb
    · subst hbs
      cases r with
      | nil => simp [headIsDash] at hdash
      | cons z r2 =>
        rw [headIsDash] at hdash
        have hz : z = '-' := by simpa using hdash
        subst hz
        rw [List.filter_cons, if_neg (by decide)] at hy
        rw [List.filter_cons, if_pos (by decide)] at hy
        have : '-' = y := by simpa using congrArg List.head? hy
        exact Or.inr this.symm

/-- The digit-successor invariant transfers through the slug filter. -/
theorem chainB_dsOK_filter (l : Str) (h : digitSuccOK l = true) :
    chainB dsOK (l.filter goodS) = true := by
  induction l with
  | nil => rfl
  | cons c rest ih =>
    rw [List.filter_cons]
    by_cases hg : goodS c = true
    · rw [if_pos hg]
      refine chainB_cons ?_ (ih (digitSuccOK_tail h))
      cases hf : rest.filter goodS with
      | nil => rfl
      | cons y tl =>
        rw [hdOK, dsOK]
        by_cases hd : isDigitA c = true
        · rcases filter_after_digit c rest h hd y tl hf with hdy | hdy
          · simp [hdy]
          · simp [hdy]
        · simp [Bool.of_not_eq_true hd]
    · rw [if_neg (by simpa using hg)]
      exact ih (digitSuccOK_tail h)

/-- `collapseDashes` keeps the head character. -/
theorem collapse_head (r : Str) : ∀ c : Char, ∃ tl, collapseDashes (c :: r) = c :: tl := by
  induction r with
  | nil => intro c; exact ⟨[], rfl⟩
  | cons c2 rest ih =>
    intro c
    rw [collapseDashes]
    by_cases h : c = '-' ∧ c2 = '-'
    · rw [if_pos h]
      obtain ⟨tl, htl⟩ := ih c2
      rw [htl, h.2, ← h.1]
      exact ⟨tl, rfl⟩
    · rw [if_neg h]
      exact ⟨_, rfl⟩

/-- `collapseDashes` preserves every adjacency relation. -/
theorem chainB_collapse {R : Char → Char → Bool} (l : Str) (h : chainB R l = true) :
    chainB R (collapseDashes l) = true := by
  induction l using collapseDashes.induct with
  | case1 => rfl
  | case2 c => exact h
  | case3 c1 c2 rest hc ih =>
    rw [collapseDashes, if_pos hc]
    exact ih (chainB_tail h)
  | case4 c1 c2 rest hc ih =>
    rw [collapseDashes, if_neg hc]
    obtain ⟨tl, htl⟩ := collapse_head rest c2
    rw [htl]
    rw [htl] at ih
    exact chainB_cons (by rw [hdOK]; exact chainB_pair h) (ih (chainB_tail h))

/-- The output of `collapseDashes` has no adjacent hyphens. -/
theorem chainB_noDD_collapse (l : Str) : chainB noDD (collapseDashes l) = true := by
  induction l using collapseDashes.induct with
  | case1 => rfl
  | case2 c => rfl
  | case3 c1 c2 rest hc ih =>
    rw [collapseDashes, if_pos hc]
    exact ih
  | case4 c1 c2 rest hc ih =>
    rw [collapseDashes, if_neg hc]
    obtain ⟨tl, htl⟩ := collapse_head rest c2
    rw [htl]
    rw [htl] at ih
    refine chainB_cons ?_ ih
    rw [hdOK, noDD]
    rw [Bool.not_eq_eq_eq_not, Bool.not_true, Bool.and_eq_false_iff]
    by_cases h1 : c1 = '-'
    · right
      rw [beq_eq_false_iff_ne]
      intro h2
      exact hc ⟨h1, h2⟩
    · left
      rw [beq_eq_false_iff_ne]
      exact h1

/-- `collapseDashes` only keeps characters of its input. -/
theorem collapse_subset (l : Str) (c : Char) (h : c ∈ collapseDashes l) : c ∈ l := by
  induction l using collapseDashes.induct with
  | case1 => exact h
  | case2 c2 => exact h
  | case3 c1 c2 rest hc ih =>
    rw [collapseDashes, if_pos hc] at h
    exact List.mem_cons_of_mem _ (ih h)
  | case4 c1 c2 rest hc ih =>
    rw [collapseDashes, if_neg hc] at h
    rcases List.mem_cons.mp h with rfl | h2
    · exact List.mem_cons_self _ _
    · exact List.mem_cons_of_mem _ (ih h2)

/-- `collapseDashes` fixes strings without adjacent hyphens. -/
theorem collapse_of_noDD (l : Str) (h : chainB noDD l = true) : collapseDashes l = l := by
  induction l using collapseDashes.induct with
  | case1 => rfl
  | case2 c => rfl
  | case3 c1 c2 rest hc ih =>
    have hp := chainB_pair h
    rw [noDD, hc.1, hc.2] at hp
    simp at hp
  | case4 c1 c2 rest hc ih =>
    rw [collapseDashes, if_neg hc, ih (chainB_tail h)]

/-- Characters of `dashND` output come from the input or are the inserted
backslash or hyphen. -/
theorem mem_dashND (l : Str) (c : Char) (h : c ∈ dashND l) :
    c ∈ l ∨ c = '\\' ∨ c = '-' := by
  induction l using dashND.induct with
  | case1 => exact Or.inl h
  | case2 c2 => exact Or.inl h
  | case3 c1 c2 rest hc ih =>
    rw [dashND, if_pos hc] at h
    rcases List.mem_cons.mp h with rfl | h2
    · exact Or.inl (List.mem_cons_self _ _)
    rcases List.mem_cons.mp h2 with rfl | h3
    · exact Or.inr (Or.inl rfl)
    rcases List.mem_cons.mp h3 with rfl | h4
    · exact Or.inr (Or.inr rfl)
    rcases ih h4 with h5 | h5
    · exact Or.inl (List.mem_cons_of_mem _ h5)
    · exact Or.inr h5
  | case4 c1 c2 rest hc ih =>
    rw [dashND, if_neg hc] at h
    rcases List.mem_cons.mp h with rfl | h2
    · exact Or.inl (List.mem_cons_self _ _)
    rcases ih h2 with h5 | h5
    · exact Or.inl (List.mem_cons_of_mem _ h5)
    · exact Or.inr h5

/-- Characters of `dashDN` output come from the input or are the inserted
backslash or hyphen. -/
theorem mem_dashDN (l : Str) (c : Char) (h : c ∈ dashDN l) :
    c ∈ l ∨ c = '\\' ∨ c = '-' := by
  induction l using dashDN.induct with
  | case1 => exact Or.inl h
  | case2 c2 => exact Or.inl h
  | case3 c1 c2 rest hc ih =>
    rw [dashDN, if_pos hc] at h
    rcases List.mem_cons.mp h with rfl | h2
    · exact Or.inl (List.mem_cons_self _ _)
    rcases List.mem_cons.mp h2 with rfl | h3
    · exact Or.inr (Or.inl rfl)
    rcases List.mem_cons.mp h3 with rfl | h4
    · exact Or.inr (Or.inr rfl)
    rcases ih h4 with h5 | h5
    · exact Or.inl (List.mem_cons_of_mem _ h5)
    · exact Or.inr h5
  | case4 c1 c2 rest hc ih =>
    rw [dashDN, if_neg hc] at h
    rcases List.mem_cons.mp h with rfl | h2
    · exact Or.inl (List.mem_cons_self _ _)
    rcases ih h2 with h5 | h5
    · exact Or.inl (List.mem_cons_of_mem _ h5)
    · exact Or.inr h5

/-- The camel-case scan fixes strings without uppercase letters. -/
theorem dashCamelAux_id (l : Str) : ∀ prev : Char, (∀ c ∈ l, isUpperA c = false) →
    dashCamelAux prev l = l := by
  induction l with
  | nil => intro prev h; rfl
  | cons c rest ih =>
    intro prev h
    rw [dashCamelAux, if_neg (by
      rintro ⟨h1, _⟩
      rw [h c (List.mem_cons_self c rest)] at h1
      exact absurd h1 (by simp))]
    rw [ih c (fun d hd => h d (List.mem_cons_of_mem _ hd))]

/-- `dashCamel` fixes strings without uppercase letters. -/
theorem dashCamel_id (l : Str) (h : ∀ c ∈ l, isUpperA c = false) : dashCamel l = l := by
  cases l with
  | nil => rfl
  | cons c rest =>
    rw [dashCamel, dashCamelAux_id rest c (fun d hd => h d (List.mem_cons_of_mem _ hd))]

/-- A map that fixes every member fixes the list. -/
theorem mapEqSelf (f : Char → Char) (l : Str) (h : ∀ c ∈ l, f c = c) : l.map f = l := by
  induction l with
  | nil => rfl
  | cons c rest ih =>
    rw [List.map_cons, h c (List.mem_cons_self c rest),
      ih (fun d hd => h d (List.mem_cons_of_mem _ hd))]

/-- Lowercase letters are not uppercase. -/
theorem lower_not_upper (c : Char) (h : isLowerA c = true) : isUpperA c = false := by
  obtain ⟨h1, h2⟩ := (isLowerA_iff c).mp h
  rw [← Bool.not_eq_true, isUpperA_iff]
  omega

/-- Digits are not uppercase. -/
theorem digit_not_upper (c : Char) (h : isDigitA c = true) : isUpperA c = false := by
  obtain ⟨h1, h2⟩ := (isDigitA_iff c).mp h
  rw [← Bool.not_eq_true, isUpperA_iff]
  omega

/-- Lowercasing a slug-filter character lands in the slug output
alphabet. -/
theorem slugChar_toLowerA_of_good (a : Char) (h : goodS a = true) :
    slugChar (toLowerA a) = true := by
  rw [goodS, Bool.or_eq_true, isAlnumA, Bool.or_eq_true, isAlphaA, Bool.or_eq_true] at h
  rcases h with ((hu | hl) | hdg) | hd
  · simp [slugChar, isLowerA_toLowerA_of_upper a hu]
  · rw [toLowerA_of_not_upper a (lower_not_upper a hl)]
    simp [slugChar, hl]
  · rw [toLowerA_of_not_upper a (digit_not_upper a hdg)]
    simp [slugChar, hdg]
  · have : a = '-' := by simpa using hd
    subst this
    decide

/-- Lowercasing preserves the no-double-hyphen pair relation. -/
theorem noDD_toLowerA (a b : Char) (h : noDD a b = true) :
    noDD (toLowerA a) (toLowerA b) = true := by
  rw [noDD, Bool.not_eq_eq_eq_not, Bool.not_true, Bool.and_eq_false_iff] at h ⊢
  rcases h with h1 | h1
  · left
    rw [beq_eq_false_iff_ne] at h1 ⊢
    intro h2
    exact h1 ((toLowerA_eq_dash_iff a).mp h2)
  · right
    rw [beq_eq_false_iff_ne] at h1 ⊢
    intro h2
    exact h1 ((toLowerA_eq_dash_iff b).mp h2)

/-- Lowercasing preserves the letter classification. -/
theorem isAlphaA_toLowerA (c : Char) : isAlphaA (toLowerA c) = isAlphaA c := by
  by_cases h : isUpperA c = true
  · have h1 := isLowerA_toLowerA_of_upper c h
    simp [isAlphaA, h1, h]
  · rw [toLowerA_of_not_upper c (by simpa using h)]

/-- Lowercasing preserves the letter-digit separation relation. -/
theorem sepOK_toLowerA (a b : Char) (h : sepOK a b = true) :
    sepOK (toLowerA a) (toLowerA b) = true := by
  rw [sepOK, isDigitA_toLowerA, isAlphaA_toLowerA, isDigitA_toLowerA, isAlphaA_toLowerA]
  exact h

/-- A lowercased slug: characters in the slug alphabet, no adjacent
hyphens, no letter-digit adjacency. -/
def canonSlug (t : Str) : Bool := t.all slugChar && (chainB noDD t && chainB sepOK t)

/-- Every slug satisfies the canonical-form invariants. -/
theorem slug_canon (s : Str) : canonSlug (slugify s) = true := by
  show canonSlug ((collapseDashes (pyStrip (List.filter goodS (dashCamel (dashDN (dashND
    (((s.map (replCh '.' '-')).map (replCh '_' '-')).map (replCh ':' '-')))))))).map toLowerA)
    = true
  set s1 := ((s.map (replCh '.' '-')).map (replCh '_' '-')).map (replCh ':' '-') with hs1
  set X := dashCamel (dashDN (dashND s1)) with hX
  have hnd : chainB ndOK X = true :=
    chainB_ndOK_dashCamel _ (chainB_ndOK_dashDN _ (chainB_ndOK_dashND s1))
  have hds : digitSuccOK X = true :=
    digitSuccOK_dashCamel _ (digitSuccOK_dashDN (dashND s1))
  have hfnd := chainB_ndOK_filter X hnd
  have hfds := chainB_dsOK_filter X hds
  have hgood : ∀ c ∈ X.filter goodS, goodS c = true := fun c hc => List.of_mem_filter hc
  have hstrip : pyStrip (X.filter goodS) = X.filter goodS :=
    pyStrip_of_no_space _ (fun c hc => goodS_no_space c (hgood c hc))
  rw [hstrip]
  have hns : chainB noDD (collapseDashes (X.filter goodS)) = true := chainB_noDD_collapse _
  have hnd2 : chainB ndOK (collapseDashes (X.filter goodS)) = true := chainB_collapse _ hfnd
  have hds2 : chainB dsOK (collapseDashes (X.filter goodS)) = true := chainB_collapse _ hfds
  have hsep : chainB sepOK (collapseDashes (X.filter goodS)) = true :=
    chainB_impl _ nd_ds_imp_sep (chainB_and _ hnd2 hds2)
  have hgood2 : ∀ c ∈ collapseDashes (X.filter goodS), goodS c = true :=
    fun c hc => hgood c (collapse_subset _ c hc)
  rw [canonSlug, Bool.and_eq_true, Bool.and_eq_true]
  refine ⟨?_, ?_, ?_⟩
  · rw [List.all_eq_true]
    intro c hc
    obtain ⟨a, ha, rfl⟩ := List.mem_map.mp hc
    exact slugChar_toLowerA_of_good a (hgood2 a ha)
  · exact chainB_map toLowerA _ noDD_toLowerA hns
  · exact chainB_map toLowerA _ sepOK_toLowerA hsep

/-- Collapse equation for a double hyphen. -/
theorem collapse_dd (l : Str) : collapseDashes ('-' :: '-' :: l) = collapseDashes ('-' :: l) := by
  rw [collapseDashes, if_pos ⟨rfl, rfl⟩]

/-- Collapse equation for a pair that is not a double hyphen. -/
theorem collapse_ne (c1 c2 : Char) (l : Str) (h : ¬(c1 = '-' ∧ c2 = '-')) :
    collapseDashes (c1 :: c2 :: l) = c1 :: collapseDashes (c2 :: l) := by
  rw [collapseDashes, if_neg h]

/-- The backslash does not survive the slug filter. -/
theorem goodS_backslash : goodS '\\' = false := by decide

/-- Digits are not the hyphen. -/
theorem digit_ne_dash (c : Char) (h : isDigitA c = true) : c ≠ '-' := by
  intro hd
  rw [hd] at h
  exact absurd h (by simp [digit_dash])

/-- Slug-alphabet characters survive the slug filter. -/
theorem slugChar_good (c : Char) (h : slugChar c = true) : goodS c = true := by
  rw [slugChar, Bool.or_eq_true, Bool.or_eq_true] at h
  rcases h with (hl | hd) | hdash
  · simp [goodS, isAlnumA, isAlphaA, hl]
  · simp [goodS, isAlnumA, hd]
  · simp [goodS, hdash]

/-- Before a digit, a separated slug character that is not a digit must be
the hyphen. -/
theorem sep_dash_left (c1 c2 : Char) (hsep : sepOK c1 c2 = true)
    (hd2 : isDigitA c2 = true) (h1 : slugChar c1 = true) (hd1 : isDigitA c1 = false) :
    c1 = '-' := by
  rw [slugChar, Bool.or_eq_true, Bool.or_eq_true] at h1
  rcases h1 with (hl | hd) | hdash
  · exfalso
    rw [sepOK, Bool.and_eq_true] at hsep
    have h2 := hsep.2
    rw [Bool.not_eq_eq_eq_not, Bool.not_true, Bool.and_eq_false_iff] at h2
    rcases h2 with h3 | h3
    · rw [isAlphaA, hl, Bool.or_true] at h3
      exact absurd h3 (by simp)
    · rw [hd2] at h3
      exact absurd h3 (by simp)
  · rw [hd] at hd1
    exact absurd hd1 (by simp)
  · simpa using hdash

/-- After a digit, a separated slug character that is not a digit must be
the hyphen. -/
theorem sep_dash_right (c1 c2 : Char) (hsep : sepOK c1 c2 = true)
    (hd1 : isDigitA c1 = true) (h2 : slugChar c2 = true) (hd2 : isDigitA c2 = false) :
    c2 = '-' := by
  rw [slugChar, Bool.or_eq_true, Bool.or_eq_true] at h2
  rcases h2 with (hl | hd) | hdash
  · exfalso
    rw [sepOK, Bool.and_eq_true] at hsep
    have h3 := hsep.1
    rw [Bool.not_eq_eq_eq_not, Bool.not_true, Bool.and_eq_false_iff] at h3
    rcases h3 with h4 | h4
    · rw [hd1] at h4
      exact absurd h4 (by simp)
    · rw [isAlphaA, hl, Bool.or_true] at h4
      exact absurd h4 (by simp)
  · rw [hd] at hd2
    exact absurd hd2 (by simp)
  · simpa using hdash

/-- The head of the filtered two-pass output over a good head character. -/
theorem slugE_head (c2 : Char) (r : Str) (hg : goodS c2 = true) :
    ∃ tl, List.filter goodS (dashDN (dashND (c2 :: r))) = c2 :: tl := by
  obtain ⟨t1, h1⟩ := dashND_head c2 r
  rw [h1]
  obtain ⟨t2, h2⟩ := dashDN_head c2 t1
  rw [h2, List.filter_cons, if_pos hg]
  exact ⟨_, rfl⟩

/-- Propositional form of the no-double-hyphen pair. -/
theorem noDD_prop (c1 c2 : Char) (h : noDD c1 c2 = true) : ¬(c1 = '-' ∧ c2 = '-') := by
  rintro ⟨rfl, rfl⟩
  exact absurd h (by decide)

/-- On a string already in slug canonical form, the two digit-delimiting
passes followed by the filter and the hyphen collapse restore the string:
the passes only duplicate hyphens that already separate digits from other
characters, and the collapse removes the duplicates. -/
theorem slug_fix_core (t : Str) (hall : t.all slugChar = true)
    (hnoDD : chainB noDD t = true) (hsep : chainB sepOK t = true) :
    collapseDashes (List.filter goodS (dashDN (dashND t))) = t := by
  induction t with
  | nil => rfl
  | cons c1 rest ih =>
    cases rest with
    | nil =>
      have hg : goodS c1 = true := slugChar_good c1 (by simpa using hall)
      have e1 : dashND [c1] = [c1] := rfl
      have e2 : dashDN [c1] = [c1] := rfl
      rw [e1, e2, List.filter_cons, if_pos hg]
      rfl
    | cons c2 rest2 =>
      rw [List.all_eq_true] at hall
      have hall1 : slugChar c1 = true := hall c1 (List.mem_cons_self _ _)
      have hall2 : slugChar c2 = true :=
        hall c2 (List.mem_cons_of_mem _ (List.mem_cons_self _ _))
      have halltl : (c2 :: rest2).all slugChar = true := by
        rw [List.all_eq_true]
        exact fun x hx => hall x (List.mem_cons_of_mem _ hx)
      have hg1 : goodS c1 = true := slugChar_good _ hall1
      have hg2 : goodS c2 = true := slugChar_good _ hall2
      have ih2 := ih halltl (chainB_tail hnoDD) (chainB_tail hsep)
      obtain ⟨tlL, htlL⟩ := slugE_head c2 rest2 hg2
      obtain ⟨tA, htA⟩ := dashND_head c2 rest2
      have ih3 : collapseDashes (c2 :: tlL) = c2 :: rest2 := by
        rw [← htlL]
        exact ih2
      have hpairDD := chainB_pair hnoDD
      have hpairSep := chainB_pair hsep
      by_cases hd1 : isDigitA c1 = true
      · by_cases hd2 : isDigitA c2 = true
        · have e1 : dashND (c1 :: c2 :: rest2) = c1 :: dashND (c2 :: rest2) := by
            rw [dashND, if_neg (by rintro ⟨hh, _⟩; exact hh hd1)]
          have e2 : dashDN (c1 :: c2 :: tA) = c1 :: dashDN (c2 :: tA) := by
            rw [dashDN, if_neg (by rintro ⟨_, hh⟩; exact hh hd2)]
          rw [e1, htA, e2, List.filter_cons, if_pos hg1, ← htA, htlL]
          rw [collapse_ne c1 c2 tlL (by rintro ⟨hh, _⟩; exact digit_ne_dash c1 hd1 hh)]
          rw [ih3]
        · have hc2 : c2 = '-' :=
            sep_dash_right c1 c2 hpairSep hd1 hall2 (Bool.of_not_eq_true hd2)
          subst hc2
          have e1 : dashND (c1 :: '-' :: rest2) = c1 :: dashND ('-' :: rest2) := by
            rw [dashND, if_neg (by rintro ⟨hh, _⟩; exact hh hd1)]
          have e2 : dashDN (c1 :: '-' :: tA) = c1 :: '\\' :: '-' :: dashDN ('-' :: tA) := by
            rw [dashDN, if_pos ⟨hd1, by simp [digit_dash]⟩]
          rw [e1, htA, e2, List.filter_cons, if_pos hg1, List.filter_cons,
            if_neg (by simp [goodS_backslash]), List.filter_cons,
            if_pos (by decide : goodS '-' = true), ← htA, htlL]
          rw [collapse_ne c1 '-' ('-' :: tlL) (by rintro ⟨hh, _⟩; exact digit_ne_dash c1 hd1 hh)]
          rw [collapse_dd, ih3]
      · by_cases hd2 : isDigitA c2 = true
        · have hc1 : c1 = '-' :=
            sep_dash_left c1 c2 hpairSep hd2 hall1 (Bool.of_not_eq_true hd1)
          subst hc1
          have e1 : dashND ('-' :: c2 :: rest2) = '-' :: '\\' :: '-' :: dashND (c2 :: rest2) := by
            rw [dashND, if_pos ⟨by simp [digit_dash], hd2⟩]
          have e2a : dashDN ('-' :: '\\' :: '-' :: c2 :: tA)
              = '-' :: dashDN ('\\' :: '-' :: c2 :: tA) := by
            rw [dashDN, if_neg (by rintro ⟨hh, _⟩; exact absurd hh (by simp [digit_dash]))]
          have e2b : dashDN ('\\' :: '-' :: c2 :: tA) = '\\' :: dashDN ('-' :: c2 :: tA) := by
            rw [dashDN, if_neg (by rintro ⟨hh, _⟩; exact absurd hh (by simp [digit_backslash]))]
          have e2c : dashDN ('-' :: c2 :: tA) = '-' :: dashDN (c2 :: tA) := by
            rw [dashDN, if_neg (by rintro ⟨hh, _⟩; exact absurd hh (by simp [digit_dash]))]
          rw [e1, htA, e2a, e2b, e2c, List.filter_cons, if_pos (by decide : goodS '-' = true),
            List.filter_cons, if_neg (by simp [goodS_backslash]), List.filter_cons,
            if_pos (by decide : goodS '-' = true), ← htA, htlL]
          rw [collapse_dd]
          rw [collapse_ne '-' c2 tlL (by rintro ⟨_, hh⟩; exact digit_ne_dash c2 hd2 hh)]
          rw [ih3]
        · have e1 : dashND (c1 :: c2 :: rest2) = c1 :: dashND (c2 :: rest2) := by
            rw [dashND, if_neg (by rintro ⟨_, hh⟩; exact hd2 hh)]
          have e2 : dashDN (c1 :: c2 :: tA) = c1 :: dashDN (c2 :: tA) := by
            rw [dashDN, if_neg (by rintro ⟨hh, _⟩; exact hd1 hh)]
          rw [e1, htA, e2, List.filter_cons, if_pos hg1, ← htA, htlL]
          rw [collapse_ne c1 c2 tlL (noDD_prop c1 c2 hpairDD)]
          rw [ih3]

/-- A slug-alphabet character is none of the replaced symbols and is not
uppercase. -/
theorem slugChar_facts (c : Char) (h : slugChar c = true) :
    c ≠ '.' ∧ c ≠ '_' ∧ c ≠ ':' ∧ isUpperA c = false := by
  have hn : (97 ≤ c.toNat ∧ c.toNat ≤ 122) ∨ (48 ≤ c.toNat ∧ c.toNat ≤ 57) ∨ c.toNat = 45 := by
    rw [slugChar, Bool.or_eq_true, Bool.or_eq_true] at h
    rcases h with (hl | hd) | hdash
    · exact Or.inl ((isLowerA_iff c).mp hl)
    · exact Or.inr (Or.inl ((isDigitA_iff c).mp hd))
    · exact Or.inr (Or.inr ((eq_dash_iff c).mp (by simpa using hdash)))
  refine ⟨?_, ?_, ?_, ?_⟩
  · intro hEq
    have h2 : c.toNat = 46 := by rw [hEq]; rfl
    omega
  · intro hEq
    have h2 : c.toNat = 95 := by rw [hEq]; rfl
    omega
  · intro hEq
    have h2 : c.toNat = 58 := by rw [hEq]; rfl
    omega
  · rw [← Bool.not_eq_true, isUpperA_iff]
    omega

/-- `slugify` fixes strings in slug canonical form. -/
theorem slug_fix (t : Str) (h : canonSlug t = true) : slugify t = t := by
  rw [canonSlug, Bool.and_eq_true, Bool.and_eq_true] at h
  obtain ⟨hall, hnoDD, hsep⟩ := h
  have hclasses : ∀ c ∈ t, slugChar c = true := List.all_eq_true.mp hall
  have hmap1 : t.map (replCh '.' '-') = t := mapEqSelf _ _ (fun c hc => by
    rw [replCh, if_neg (by simp [(slugChar_facts c (hclasses c hc)).1])])
  have hmap2 : t.map (replCh '_' '-') = t := mapEqSelf _ _ (fun c hc => by
    rw [replCh, if_neg (by simp [(slugChar_facts c (hclasses c hc)).2.1])])
  have hmap3 : t.map (replCh ':' '-') = t := mapEqSelf _ _ (fun c hc => by
    rw [replCh, if_neg (by simp [(slugChar_facts c (hclasses c hc)).2.2.1])])
  have hupperX : ∀ c ∈ dashDN (dashND t), isUpperA c = false := by
    intro c hc
    rcases mem_dashDN _ c hc with h1 | h2 | h2
    · rcases mem_dashND _ c h1 with h4 | h5 | h5
      · exact (slugChar_facts c (hclasses c h4)).2.2.2
      · subst h5; decide
      · subst h5; decide
    · subst h2; decide
    · subst h2; decide
  have hcamel : dashCamel (dashDN (dashND t)) = dashDN (dashND t) := dashCamel_id _ hupperX
  have hstrip : pyStrip ((dashDN (dashND t)).filter goodS) = (dashDN (dashND t)).filter goodS :=
    pyStrip_of_no_space _ (fun c hc => goodS_no_space c (List.of_mem_filter hc))
  have hcore := slug_fix_core t hall hnoDD hsep
  have hlower : t.map toLowerA = t := mapEqSelf _ _ (fun c hc =>
    toLowerA_of_not_upper c (slugChar_facts c (hclasses c hc)).2.2.2)
  show (collapseDashes (pyStrip (List.filter goodS (dashCamel (dashDN (dashND
    (((t.map (replCh '.' '-')).map (replCh '_' '-')).map (replCh ':' '-')))))))).map toLowerA = t
  rw [hmap1, hmap2, hmap3, hcamel, hstrip, hcore, hlower]

/-- Claim C6 (confirmed): the slug generator is idempotent — applying
`slugify` (with default lowercasing) to its own output returns the output
unchanged, for every input string. -/
theorem C6_slugify_idempotent (s : Str) : slugify (slugify s) = slugify s :=
  slug_fix (slugify s) (slug_canon s)

/-- Claim C10 (confirmed): with default lowercasing, every character of
`slugify s` is an ASCII lowercase letter, a decimal digit, or the hyphen,
and the result never contains two consecutive hyphens. -/
theorem C10_slug_alphabet (s : Str) :
    (slugify s).all (fun c => isLowerA c || isDigitA c || c == '-') = true ∧
    ∀ u v : Str, slugify s ≠ u ++ '-' :: '-' :: v := by
  have h := slug_canon s
  rw [canonSlug, Bool.and_eq_true, Bool.and_eq_true] at h
  obtain ⟨hall, hnoDD, _⟩ := h
  refine ⟨hall, ?_⟩
  intro u v hEq
  rw [hEq] at hnoDD
  have h2 := chainB_append_pair u v hnoDD
  exact absurd h2 (by decide)
